import Mathlib

/-!
Shallow embedding of the mock data provider (`src/src/providers/mockDataProvider.ts`):
an in-memory CRUD store over named collections with cascade deletion and deep
variant cloning.  JavaScript values the provider manipulates are modelled by
`Mock.Prim` (numbers, strings, `NaN`) and `Mock.Value` (a primitive, or the one
kind of nested container the data model has: a `specDetails` array of spec-line
objects whose fields are primitives).  Records (plain JS objects) are ordered
association lists; the database is the `mockDatabase` object (an association list
of collection names to arrays of records) together with the `nextId` counter.
`null`/`undefined` are modelled by `Option` (`none`) at the places they can occur.
-/

namespace Mock

/-- Primitive JS values: integral numbers (ids, counts, foreign keys — the
provider only ever handles integral numbers), strings, and `NaN` (the result of
`Number(...)` on a non-numeric string). -/
inductive Prim : Type where
  | num : Int → Prim
  | str : String → Prim
  | nan : Prim
deriving DecidableEq, Repr

/-- A spec line (L4 entity): a JS object with primitive fields, as an ordered
association list. -/
abbrev Spec : Type := List (String × Prim)

/-- A field value of a top-level record: a primitive, or a nested `specDetails`
array of spec-line objects. -/
inductive Value : Type where
  | prim : Prim → Value
  | specs : List Spec → Value
deriving DecidableEq, Repr

/-- Shorthand for a numeric field value. -/
def vnum (n : Int) : Value := .prim (.num n)

/-- Shorthand for a string field value. -/
def vstr (s : String) : Value := .prim (.str s)

/-- A record: a JS object, as an ordered association list of fields. -/
abbrev Rcd : Type := List (String × Value)

/-- `o[f]`: first binding of field `f`; `none` models JS `undefined`. -/
def getA {α : Type} : List (String × α) → String → Option α
  | [], _ => none
  | (k, v) :: rest, f => if k = f then some v else getA rest f

/-- JS property write / later-spread override `{...o, f: v}`: replace the first
binding of `f` in place (JS keeps the original key position), else append. -/
def setA {α : Type} : List (String × α) → String → α → List (String × α)
  | [], f, v => [(f, v)]
  | (k, w) :: rest, f, v => if k = f then (k, v) :: rest else (k, w) :: setA rest f v

/-- JS object spread `{...base, ...patch}`. -/
def mergeRec (base patch : Rcd) : Rcd :=
  patch.foldl (fun r kv => setA r kv.1 kv.2) base

/-- Digit run to its numeric value. -/
def digitsVal (cs : List Char) : Nat :=
  cs.foldl (fun a c => a * 10 + (c.toNat - 48)) 0

/-- JS `Number(s)` on the strings that occur here: the empty string is `0`
(as in JS), an optional minus sign followed by decimal digits parses, and
anything else is `NaN` (`none`).  (Whitespace trimming and float/hex forms of
JS numeric conversion do not arise and are not modelled.) -/
def strToNum (s : String) : Option Int :=
  match s.data with
  | [] => some 0
  | '-' :: rest => if rest ≠ [] ∧ rest.all Char.isDigit then some (-(digitsVal rest : Int)) else none
  | cs => if cs.all Char.isDigit then some (digitsVal cs) else none

/-- JS `Number(v)` for a primitive. -/
def numP : Prim → Option Int
  | .num n => some n
  | .str s => strToNum s
  | .nan => none

/-- JS `Number(v)` for a field value (arrays do not occur as ids; the array
case of JS `ToNumber` is not modelled). -/
def numJS : Value → Option Int
  | .prim p => numP p
  | .specs _ => none

/-- JS `Number(v)` as a value: a number, or `NaN`. -/
def numV (v : Value) : Value :=
  match numJS v with
  | some n => vnum n
  | none => .prim .nan

/-- JS loose equality `==` between primitives: same-type comparison is plain
equality, number-vs-string coerces the string with `Number`, and `NaN` equals
nothing. -/
def looseEqP : Prim → Prim → Bool
  | .num a, .num b => a = b
  | .str a, .str b => a = b
  | .num a, .str b => strToNum b = some a
  | .str a, .num b => strToNum a = some b
  | _, _ => false

/-- JS loose equality `==` between field values.  An array compared to a
primitive goes through `ToPrimitive` in JS; that never happens for the id and
foreign-key fields compared here and is modelled as `false`; two distinct array
objects are `==` only by reference, also `false` here. -/
def looseEq : Value → Value → Bool
  | .prim a, .prim b => looseEqP a b
  | _, _ => false

/-- `record[field] == v` where the field may be absent (`undefined`): JS
`undefined` is loosely equal only to `null`/`undefined`, and the right-hand
sides compared here are always numbers or strings, so an absent field never
matches. -/
def looseEqO : Option Value → Value → Bool
  | none, _ => false
  | some w, v => looseEq w v

/-- JS strict `!==`/`===` of a field against the result of `Number(id)` (a
number or `NaN`): true only when the field holds exactly that number.  With a
`NaN` right-hand side this is always false, as `NaN === x` is in JS. -/
def strictEqNum : Option Value → Value → Bool
  | some (.prim (.num a)), .prim (.num b) => a = b
  | _, _ => false

/-- JS `String(p)` for a primitive (integral numbers print in decimal, as in
JS). -/
def primStr : Prim → String
  | .num n => toString n
  | .str s => s
  | .nan => "NaN"

/-- JS `String(v)` for a field value (an array stringifies by joining the
elements; object elements print as in JS). -/
def toStr : Value → String
  | .prim p => primStr p
  | .specs l => String.intercalate "," (l.map (fun _ => "[object Object]"))

/-- JS `String(record[field])`: an absent field is `undefined`. -/
def toStrO : Option Value → String
  | none => "undefined"
  | some v => toStr v

/-- JS truthiness of a possibly-absent value: `undefined`, `0`, `""` and `NaN`
are falsy; arrays are truthy. -/
def truthy : Option Value → Bool
  | none => false
  | some (.prim (.num n)) => n ≠ 0
  | some (.prim (.str s)) => s ≠ ""
  | some (.prim .nan) => false
  | some (.specs _) => true

/-- Case-insensitive substring test, JS `a.toLowerCase().includes(b.toLowerCase())`. -/
def infixOf : List Char → List Char → Bool
  | p, [] => p.isEmpty
  | p, c :: cs => p.isPrefixOf (c :: cs) || infixOf p cs

/-- JS `String.prototype.includes` after `toLowerCase` on both sides. -/
def containsCI (hay needle : String) : Bool :=
  infixOf needle.toLower.data hay.toLower.data

/-- A `(field, operator, value)` filter triple as destructured by `getList`.
An absent or `undefined` (or `null`, which `getList` treats identically)
`value` is `none`. -/
structure Filter : Type where
  field : String
  op : String
  value : Option Value
deriving DecidableEq, Repr

/-- The `pagination` argument; `current` defaults to 1 and `pageSize` to 10.
The UI always passes `current ≥ 1`; JS negative `slice` indices (which a
`current = 0` would produce) are not modelled. -/
structure Pagination : Type where
  current : Option Nat
  pageSize : Option Nat
deriving DecidableEq, Repr

/-- The in-memory database: the `mockDatabase` object (collection name →
array of records, as an ordered association list) and the `nextId` counter. -/
structure DB : Type where
  colls : List (String × List Rcd)
  nextId : Int
deriving DecidableEq, Repr

/-- `mockDatabase[resource]`: `none` when the key is absent. -/
def getColl (db : DB) (r : String) : Option (List Rcd) :=
  getA db.colls r

/-- `mockDatabase[resource] || []`. -/
def getCollD (db : DB) (r : String) : List Rcd :=
  (getColl db r).getD []

/-- `mockDatabase[resource] = arr`: overwrite in place, or add the key (at the
end, as JS does for a new key). -/
def setColl (db : DB) (r : String) (arr : List Rcd) : DB :=
  { db with colls := setA db.colls r arr }

/-- The errors the provider throws (all are `throw new Error(msg)` in the
source; the constructors record which throw site fired, matching the spec's
taxonomy: `notFound` for the three CRUD misses — carrying the resource name
and the id as interpolated into the message template, i.e. `String(id)`, so a
string id and the number it denotes throw the same error, as in JS —
`sourceVariantMissing` for the
clone's NotFound, `missingParam` for the clone's Validation error,
`unimplemented` for an unmatched custom request, and `typeError` for the JS
`TypeError` raised by `.map` on a bom item without a `specDetails` array). -/
inductive Err : Type where
  | notFound : String → String → Err
  | sourceVariantMissing : Int → Err
  | missingParam : String → Err
  | unimplemented : String → String → Err
  | typeError : Err
deriving DecidableEq, Repr

instance {ε α : Type} [DecidableEq ε] [DecidableEq α] :
    DecidableEq (Except ε α) := fun x y =>
  match x, y with
  | .ok a, .ok b => if h : a = b then .isTrue (by rw [h]) else .isFalse (by simp [h])
  | .error a, .error b => if h : a = b then .isTrue (by rw [h]) else .isFalse (by simp [h])
  | .ok _, .error _ => .isFalse (by simp)
  | .error _, .ok _ => .isFalse (by simp)

/-- One filter pass of `getList`: the `eq` branch runs when the value is
present (the source skips `undefined` and `null`, both `none` here) and keeps
the records whose field is loosely equal to it; the `contains` branch runs for a
truthy value and keeps the records whose stringified field contains the value
case-insensitively; any other operator leaves the data unchanged. -/
def applyFilter (data : List Rcd) (f : Filter) : List Rcd :=
  if f.op = "eq" ∧ f.value.isSome then
    data.filter (fun item => looseEqO (getA item f.field) (f.value.getD (vnum 0)))
  else if f.op = "contains" ∧ truthy f.value then
    data.filter (fun item => containsCI (toStrO (getA item f.field)) (toStr (f.value.getD (vnum 0))))
  else
    data

/-- The `filters.forEach` loop of `getList`. -/
def applyFilters (filters : List Filter) (data : List Rcd) : List Rcd :=
  filters.foldl applyFilter data

/-- `getList`: filter, then page-window `slice`, returning the page and the
filtered total. -/
def getList (db : DB) (resource : String) (filters : List Filter)
    (pagination : Option Pagination) : List Rcd × Nat :=
  let data := applyFilters filters (getCollD db resource)
  let current := (pagination.map (·.current)).join.getD 1
  let pageSize := (pagination.map (·.pageSize)).join.getD 10
  let start := (current - 1) * pageSize
  (data.drop start |>.take pageSize, data.length)

/-- `item.id == id`, the loose-equality id probe shared by `getOne`, `update`,
`deleteOne`, `updateMany` and `deleteMany`. -/
def idMatches (id : Value) (item : Rcd) : Bool :=
  looseEqO (getA item "id") id

/-- `getOne`: find by loose id equality, throw `NotFound` when the resource is
unknown or no record matches. -/
def getOne (db : DB) (resource : String) (id : Value) : Except Err Rcd :=
  match (getCollD db resource).find? (idMatches id) with
  | some r => .ok r
  | none => .error (.notFound resource (toStr id))

/-- `create`: allocate `nextId`, build `{ id: newId, ...vars }` (note the
spread comes second, so a caller-supplied `id` field overrides the fresh one),
create the collection when absent, and push. -/
def create (db : DB) (resource : String) (vars : Rcd) : Rcd × DB :=
  let newId := db.nextId
  let newRecord := mergeRec [("id", vnum newId)] vars
  let arr := match getColl db resource with
    | none => []
    | some a => a
  let db' := setColl { db with nextId := db.nextId + 1 } resource (arr ++ [newRecord])
  (newRecord, db')

/-- `findIndex` + assignment at that index: rewrite the first record matching
`p` with `f`, or `none` when no record matches. -/
def updateFirst (p : Rcd → Bool) (f : Rcd → Rcd) : List Rcd → Option (List Rcd)
  | [] => none
  | r :: rest =>
    if p r then some (f r :: rest)
    else (updateFirst p f rest).map (r :: ·)

/-- `findIndex` + `splice(index, 1)`: remove the first record matching `p`,
returning it and the remaining array, or `none` when no record matches. -/
def deleteFirst (p : Rcd → Bool) : List Rcd → Option (Rcd × List Rcd)
  | [] => none
  | r :: rest =>
    if p r then some (r, rest)
    else (deleteFirst p rest).map (fun x => (x.1, r :: x.2))

/-- `update`: find by loose id equality, merge
`{ ...old, ...vars, id: Number(id) }` (the trailing `id:` write protects
the id from a caller-supplied override), throw `NotFound` otherwise. -/
def update (db : DB) (resource : String) (id : Value) (vars : Rcd) :
    Except Err (Rcd × DB) :=
  let arr := getCollD db resource
  match arr.find? (idMatches id) with
  | none => .error (.notFound resource (toStr id))
  | some old =>
    let updated := setA (mergeRec old vars) "id" (numV id)
    match updateFirst (idMatches id) (fun _ => updated) arr with
    | none => .error (.notFound resource (toStr id))
    | some arr' => .ok (updated, setColl db resource arr')

/-- `deleteOne`: splice out the first record matching the id loosely, then run
the cascade: deleting from `styles` also drops every `variants` record whose
`style_id` strictly equals `Number(id)`, and deleting from `variants` also
drops every `bom_items` record whose `variant_id` strictly equals `Number(id)`.
Throws `NotFound` when nothing matches.  (The source reads
`mockDatabase.variants` / `mockDatabase.bom_items` directly during the cascade;
those keys exist in the seeded database, and a missing key is modelled as the
empty collection.) -/
def deleteOne (db : DB) (resource : String) (id : Value) :
    Except Err (Rcd × DB) :=
  let arr := getCollD db resource
  match deleteFirst (idMatches id) arr with
  | none => .error (.notFound resource (toStr id))
  | some (deleted, arr') =>
    let db1 := setColl db resource arr'
    let db2 :=
      if resource = "styles" then
        setColl db1 "variants"
          ((getCollD db1 "variants").filter
            (fun v => !strictEqNum (getA v "style_id") (numV id)))
      else if resource = "variants" then
        setColl db1 "bom_items"
          ((getCollD db1 "bom_items").filter
            (fun b => !strictEqNum (getA b "variant_id") (numV id)))
      else db1
    .ok (deleted, db2)

/-- `getMany`: keep the records whose `String(item.id)` is an element of the
requested id array (`Array.prototype.includes`, strict SameValueZero equality —
so only ids passed as strings can ever match the stringified stored id). -/
def getMany (db : DB) (resource : String) (ids : List Value) : List Rcd :=
  (getCollD db resource).filter
    (fun item => ids.contains (vstr (toStrO (getA item "id"))))

/-- The `ids.forEach` loop of `updateMany` over one collection array: each
listed id that matches a record (loose equality) has that record merged with
`{ ...old, ...vars }` — with no trailing `id:` write, unlike `update` —
and is appended to the returned ids; missing ids are skipped. -/
def updateManyLoop (vars : Rcd) : List Rcd → List Value → List Rcd × List Value
  | arr, [] => (arr, [])
  | arr, id :: rest =>
    match updateFirst (idMatches id) (fun old => mergeRec old vars) arr with
    | some arr' =>
      let (arr'', upd) := updateManyLoop vars arr' rest
      (arr'', id :: upd)
    | none => updateManyLoop vars arr rest

/-- `updateMany`: run the loop when the collection exists; an unknown resource
updates nothing and returns no ids. -/
def updateMany (db : DB) (resource : String) (ids : List Value)
    (vars : Rcd) : List Value × DB :=
  match getColl db resource with
  | none => ([], db)
  | some arr =>
    let (arr', upd) := updateManyLoop vars arr ids
    (upd, setColl db resource arr')

/-- The `ids.forEach` loop of `deleteMany` over one collection array: each
listed id that matches a record (loose equality) has that record spliced out
and is appended to the returned ids; missing ids are skipped.  No cascade runs. -/
def deleteManyLoop : List Rcd → List Value → List Rcd × List Value
  | arr, [] => (arr, [])
  | arr, id :: rest =>
    match deleteFirst (idMatches id) arr with
    | some (_, arr') =>
      let (arr'', del) := deleteManyLoop arr' rest
      (arr'', id :: del)
    | none => deleteManyLoop arr rest

/-- `deleteMany`: run the loop when the collection exists; an unknown resource
deletes nothing and returns no ids. -/
def deleteMany (db : DB) (resource : String) (ids : List Value) :
    List Value × DB :=
  match getColl db resource with
  | none => ([], db)
  | some arr =>
    let (arr', del) := deleteManyLoop arr ids
    (del, setColl db resource arr')

/-- Strip a literal from the head of the character stream, or fail. -/
def stripLit : List Char → List Char → Option (List Char)
  | [], cs => some cs
  | l :: ls, c :: cs => if c = l then stripLit ls cs else none
  | _ :: _, [] => none

/-- Maximal leading digit run and the rest. -/
def spanDigits : List Char → List Char × List Char
  | [] => ([], [])
  | c :: rest =>
    if c.isDigit then
      let (d, r) := spanDigits rest
      (c :: d, r)
    else ([], c :: rest)

/-- Try to match `\/api\/styles\/(\d+)\/variants\/(\d+)\/clone` starting at
this position.  `\d+` is greedy; since each digit group is followed by a
literal `/`, the maximal digit run is the only viable match. -/
def tryCloneAt (cs : List Char) : Option (Int × Int) := do
  let cs1 ← stripLit "/api/styles/".data cs
  let (d1, cs2) := spanDigits cs1
  if d1 = [] then none else
  let cs3 ← stripLit "/variants/".data cs2
  let (d2, cs4) := spanDigits cs3
  if d2 = [] then none else
  let _ ← stripLit "/clone".data cs4
  some ((digitsVal d1 : Int), (digitsVal d2 : Int))

/-- `url.match(cloneRegex)`: the regex is unanchored, so search every start
position, leftmost first, and return the two captured numbers. -/
def matchClone : List Char → Option (Int × Int)
  | [] => none
  | c :: cs => tryCloneAt (c :: cs) <|> matchClone cs

/-- The inner `specDetails.map(spec => ({ ...spec, id: nextId++ }))`:
copy every spec line in order, overriding `id` with a freshly allocated
number; returns the clones and the advanced counter. -/
def cloneSpecsLoop : List Spec → Int → List Spec × Int
  | [], n => ([], n)
  | s :: rest, n =>
    let (cs, n') := cloneSpecsLoop rest (n + 1)
    (setA s "id" (.num n) :: cs, n')

/-- The `sourceBomItems.forEach` loop: for each source bom item, allocate the
clone's id first, then clone its `specDetails` with fresh ids, then build the
clone by copying the source and overriding `id`, `variant_id` and
`specDetails`.  A bom item whose `specDetails` is not an array makes JS throw
a `TypeError` in `.map` after the bom id was already allocated; the items
cloned before the failure stay appended.  Returns the outcome, the new bom
items in order, the bom and spec counts, and the advanced counter. -/
def cloneBomsLoop (newVid : Int) : List Rcd → Int → Except Err Unit × List Rcd × Nat × Nat × Int
  | [], n => (.ok (), [], 0, 0, n)
  | bom :: rest, n =>
    let newBomId := n
    match getA bom "specDetails" with
    | some (.specs specs) =>
      let (clonedSpecs, n1) := cloneSpecsLoop specs (n + 1)
      let newBom :=
        setA (setA (setA bom "id" (vnum newBomId)) "variant_id" (vnum newVid))
          "specDetails" (.specs clonedSpecs)
      let (e, boms, bc, sc, n') := cloneBomsLoop newVid rest n1
      (e, newBom :: boms, bc + 1, sc + specs.length, n')
    | _ => (.error .typeError, [], 0, 0, n + 1)

/-- `custom`: requests whose `url` matches the clone pattern with method
`post` run the deep clone of a color variant; anything else fails with the
`Unimplemented` error.  The clone first validates `new_color_name`
(truthiness), then resolves the source variant by strict id equality, then
pushes the new variant (copy of the source with fresh `id` and the new
`color_name`), then clones each source bom item (selected by strict
`variant_id` equality, in collection order) with its spec lines, and returns
the summary object.  Failures before the first insert leave the database
unchanged; a mid-loop `TypeError` leaves the inserts already made. -/
def custom (db : DB) (url method : String) (payload : Option Rcd) :
    Except Err Rcd × DB :=
  match matchClone url.data, method == "post" with
  | some (_styleId, sourceVariantId), true =>
    let ncn := getA (payload.getD []) "new_color_name"
    if truthy ncn then
      match (getCollD db "variants").find?
          (fun v => strictEqNum (getA v "id") (vnum sourceVariantId)) with
      | none => (.error (.sourceVariantMissing sourceVariantId), db)
      | some sourceVariant =>
        let newVariantId := db.nextId
        let ncnV := ncn.getD (vnum 0)
        let newVariant :=
          setA (setA sourceVariant "id" (vnum newVariantId)) "color_name" ncnV
        let db1 := setColl { db with nextId := db.nextId + 1 } "variants"
          (getCollD db "variants" ++ [newVariant])
        let sourceBomItems := (getCollD db1 "bom_items").filter
          (fun b => strictEqNum (getA b "variant_id") (vnum sourceVariantId))
        let (e, newBoms, bc, sc, n') :=
          cloneBomsLoop newVariantId sourceBomItems db1.nextId
        let db2 := setColl { db1 with nextId := n' } "bom_items"
          (getCollD db1 "bom_items" ++ newBoms)
        match e with
        | .ok _ =>
          (.ok [("id", vnum newVariantId), ("color_name", ncnV),
                ("cloned_bom_count", vnum bc), ("cloned_spec_count", vnum sc)], db2)
        | .error err => (.error err, db2)
    else (.error (.missingParam "new_color_name"), db)
  | _, _ => (.error (.unimplemented method url), db)

/-- A facade operation with its arguments, for reasoning about arbitrary
operation sequences. -/
inductive Op : Type where
  | getList (resource : String) (filters : List Filter) (pagination : Option Pagination)
  | getOne (resource : String) (id : Value)
  | create (resource : String) (vars : Rcd)
  | update (resource : String) (id : Value) (vars : Rcd)
  | deleteOne (resource : String) (id : Value)
  | getMany (resource : String) (ids : List Value)
  | updateMany (resource : String) (ids : List Value) (vars : Rcd)
  | deleteMany (resource : String) (ids : List Value)
  | custom (url method : String) (payload : Option Rcd)

/-- The state transition of one facade operation: the database it leaves
behind, whether the operation succeeds or throws (a thrown operation leaves
whatever state it had reached — only the clone's mid-loop `TypeError` ever
differs from the starting state). -/
def applyOp (db : DB) : Op → DB
  | .getList _ _ _ => db
  | .getOne _ _ => db
  | .create r v => (create db r v).2
  | .update r i v =>
    match update db r i v with
    | .ok (_, db') => db'
    | .error _ => db
  | .deleteOne r i =>
    match deleteOne db r i with
    | .ok (_, db') => db'
    | .error _ => db
  | .getMany _ _ => db
  | .updateMany r ids v => (updateMany db r ids v).2
  | .deleteMany r ids => (deleteMany db r ids).2
  | .custom u m p => (custom db u m p).2

/-- Run a sequence of facade operations from a starting state. -/
def runOps (db : DB) (ops : List Op) : DB :=
  ops.foldl applyOp db

/-- The per-record predicate the specification ascribes to one `getList`
filter: an `eq` filter with a present value keeps the records whose stored
field loosely equals it and is a no-op otherwise; a `contains` filter with a
truthy value keeps the records whose field's case-insensitive string form
contains the value's and is a no-op otherwise; any other operator keeps all
records.  Stated from the spec's words, to be compared with `applyFilters`. -/
def specPasses (f : Filter) (item : Rcd) : Bool :=
  if f.op = "eq" then
    match f.value with
    | none => true
    | some v => looseEqO (getA item f.field) v
  else if f.op = "contains" then
    match f.value with
    | some v => if truthy (some v) then containsCI (toStrO (getA item f.field)) (toStr v) else true
    | none => true
  else true

/-- The record's `id` field holds a number. -/
def hasNumId (r : Rcd) : Bool :=
  match getA r "id" with
  | some (.prim (.num _)) => true
  | _ => false

/-- The record's `id` field holds a number below `bound`. -/
def idBelow (bound : Int) (r : Rcd) : Bool :=
  match getA r "id" with
  | some (.prim (.num n)) => decide (n < bound)
  | _ => false

/-- A spec line's `id` field holds a number below `bound`. -/
def specIdBelow (bound : Int) (s : Spec) : Bool :=
  match getA s "id" with
  | some (.num n) => decide (n < bound)
  | _ => false

/-- The record's `specDetails` field holds an array of spec lines. -/
def hasSpecsArr (r : Rcd) : Bool :=
  match getA r "specDetails" with
  | some (.specs _) => true
  | _ => false

/-- The record's `specDetails` array (empty when absent or not an array). -/
def specsOf (r : Rcd) : List Spec :=
  match getA r "specDetails" with
  | some (.specs l) => l
  | _ => []

/-- How many spec lines the record carries. -/
def specsLen (r : Rcd) : Nat := (specsOf r).length

/-- The record's `id` and all its spec-line ids are numbers below `bound`. -/
def bomAllBelow (bound : Int) (r : Rcd) : Bool :=
  idBelow bound r && (specsOf r).all (specIdBelow bound)

/-- A healthy collection with respect to the allocator counter: every record
has a numeric id below the counter and the ids are pairwise distinct (spec
invariant P1 plus the allocator contract that the counter starts above every
id present). -/
def goodColl (bound : Int) (arr : List Rcd) : Prop :=
  (∀ r ∈ arr, idBelow bound r = true) ∧ (arr.map (fun r => getA r "id")).Nodup

instance (bound : Int) (arr : List Rcd) : Decidable (goodColl bound arr) := by
  unfold goodColl; infer_instance

/-- The database invariant: every collection is healthy with respect to
`nextId`. -/
def Inv (db : DB) : Prop := ∀ p ∈ db.colls, goodColl db.nextId p.2

instance (db : DB) : Decidable (Inv db) := by
  unfold Inv; infer_instance

/-- The caller-supplied object carries no `id` field. -/
def noIdField (vars : Rcd) : Prop := "id" ∉ vars.map Prod.fst

instance (vars : Rcd) : Decidable (noIdField vars) := by
  unfold noIdField; infer_instance

/-- The side condition under which the uniqueness invariant is preserved:
`create` and `updateMany` must not be handed an `id` field inside the
caller-supplied object (the source spreads it *after* the fresh id in `create`
and applies it unprotected in `updateMany`, so such a field would overwrite
the stored id). -/
def opOk : Op → Prop
  | .create _ v => noIdField v
  | .updateMany _ _ v => noIdField v
  | _ => True

instance (op : Op) : Decidable (opOk op) := by
  cases op <;> (unfold opOk; infer_instance)

/-- A small concrete seeded database used to instantiate the theorems:
one style, two variants of it, three bom items (two under variant 101, one
under variant 102) with nested spec lines, and the allocator at 10000. -/
def exDB : DB :=
  { colls :=
      [("styles", [[("id", vnum 1), ("style_no", vstr "S1")]]),
       ("variants",
        [[("id", vnum 101), ("style_id", vnum 1), ("color_name", vstr "Red")],
         [("id", vnum 102), ("style_id", vnum 1), ("color_name", vstr "Blue")]]),
       ("bom_items",
        [[("id", vnum 201), ("variant_id", vnum 101), ("material", vstr "cotton"),
          ("specDetails", .specs [[("id", .num 301), ("size", .str "M")],
                                  [("id", .num 302), ("size", .str "L")]])],
         [("id", vnum 202), ("variant_id", vnum 102), ("material", vstr "silk"),
          ("specDetails", .specs [])],
         [("id", vnum 203), ("variant_id", vnum 101), ("material", vstr "wool"),
          ("specDetails", .specs [[("id", .num 303), ("size", .str "S")]])]]),
       ("customers", []), ("sizes", []), ("units", [])],
    nextId := 10000 }

/-- The bom items selected by the clone: strict `variant_id` equality against
the numeric source variant id, in collection order. -/
def selectedBoms (db : DB) (vid : Int) : List Rcd :=
  (getCollD db "bom_items").filter
    (fun b => strictEqNum (getA b "variant_id") (vnum vid))

/-- `n` is the id of no entity of the source database: it differs from every
`variants` record id, from every `bom_items` record id, and from every
spec-line id nested inside a bom item's `specDetails`. -/
def freshFor (db : DB) (n : Int) : Prop :=
  (∀ r ∈ getCollD db "variants", getA r "id" ≠ some (vnum n)) ∧
  (∀ b ∈ getCollD db "bom_items", getA b "id" ≠ some (vnum n) ∧
    ∀ s ∈ specsOf b, getA s "id" ≠ some (.num n))

theorem getA_setA_self {α : Type} (o : List (String × α)) (f : String) (v : α) :
    getA (setA o f v) f = some v := by
  induction o with
  | nil => simp [setA, getA]
  | cons kv rest ih =>
    obtain ⟨k, w⟩ := kv
    by_cases h : k = f <;> simp [setA, getA, h, ih]

theorem getA_setA_ne {α : Type} (o : List (String × α)) (f g : String) (v : α)
    (h : f ≠ g) : getA (setA o f v) g = getA o g := by
  induction o with
  | nil => simp [setA, getA, h]
  | cons kv rest ih =>
    obtain ⟨k, w⟩ := kv
    by_cases hk : k = f
    · subst hk; simp [setA, getA, h, ih]
    · by_cases hg : k = g <;> simp [setA, getA, hk, hg, ih, Ne.symm h]

/-- A spread with a patch that has no `f` key leaves `f` unchanged. -/
theorem getA_mergeRec_of_not_mem (base patch : Rcd) (f : String)
    (h : f ∉ patch.map Prod.fst) :
    getA (mergeRec base patch) f = getA base f := by
  induction patch generalizing base with
  | nil => simp [mergeRec]
  | cons kv rest ih =>
    obtain ⟨k, w⟩ := kv
    simp only [List.map_cons, List.mem_cons] at h
    push_neg at h
    have : mergeRec base ((k, w) :: rest) = mergeRec (setA base k w) rest := by
      simp [mergeRec, List.foldl_cons]
    rw [this, ih (setA base k w) h.2, getA_setA_ne _ _ _ _ (Ne.symm (h.1))]

theorem mem_applyFilter (data : List Rcd) (f : Filter) (r : Rcd) :
    r ∈ applyFilter data f ↔ r ∈ data ∧ specPasses f r = true := by
  unfold applyFilter specPasses
  by_cases he : f.op = "eq"
  · rcases hv : f.value with _ | v
    · simp [he, hv]
    · simp [he, hv, List.mem_filter]
  · by_cases hc : f.op = "contains"
    · rcases hv : f.value with _ | v
      · simp [he, hc, hv, truthy]
      · by_cases ht : truthy (some v)
        · simp [he, hc, hv, ht, List.mem_filter]
        · simp [he, hc, hv, ht]
    · simp [he, hc]

theorem mem_applyFilters (filters : List Filter) (data : List Rcd) (r : Rcd) :
    r ∈ applyFilters filters data ↔ r ∈ data ∧ ∀ f ∈ filters, specPasses f r = true := by
  induction filters generalizing data with
  | nil => simp [applyFilters]
  | cons f fs ih =>
    have : applyFilters (f :: fs) data = applyFilters fs (applyFilter data f) := by
      simp [applyFilters, List.foldl_cons]
    rw [this, ih, mem_applyFilter]
    constructor
    · rintro ⟨⟨hr, hp⟩, hfs⟩
      exact ⟨hr, by simpa [hp] using hfs⟩
    · rintro ⟨hr, hall⟩
      exact ⟨⟨hr, hall f (by simp)⟩, fun g hg => hall g (by simp [hg])⟩

/-- Claim C7: in every `getList` call the declared filters are ANDed in the
order given, with: `eq` keeping exactly the records whose stored field loosely
equals the value (number–string coercion allowed, so stored id `101` matches
`"101"`) and a no-op for an absent/undefined value; `contains` keeping exactly
the records whose field's case-insensitive string form contains the value's
and a no-op for a falsy value; unrecognized operators keeping all records. -/
theorem C7_getList_filter_semantics (db : DB) (resource : String)
    (filters : List Filter) (pagination : Option Pagination) (r : Rcd) :
    (r ∈ applyFilters filters (getCollD db resource) ↔
       r ∈ getCollD db resource ∧ ∀ f ∈ filters, specPasses f r = true) ∧
    (getList db resource filters pagination).2 =
      (applyFilters filters (getCollD db resource)).length ∧
    looseEqP (.num 101) (.str "101") = true := by
  refine ⟨mem_applyFilters filters (getCollD db resource) r, rfl, by decide⟩

theorem updateFirst_eq_none (p : Rcd → Bool) (f : Rcd → Rcd) (l : List Rcd) :
    updateFirst p f l = none ↔ ∀ r ∈ l, p r = false := by
  induction l with
  | nil => simp [updateFirst]
  | cons r rest ih =>
    by_cases h : p r <;> simp [updateFirst, h, ih, Option.map_eq_none']

theorem updateFirst_eq_some (p : Rcd → Bool) (f : Rcd → Rcd) (l l' : List Rcd)
    (h : updateFirst p f l = some l') :
    ∃ pre r0 post, l = pre ++ r0 :: post ∧ l' = pre ++ f r0 :: post ∧
      (∀ r ∈ pre, p r = false) ∧ p r0 = true := by
  induction l generalizing l' with
  | nil => simp [updateFirst] at h
  | cons r rest ih =>
    by_cases hp : p r
    · refine ⟨[], r, rest, rfl, ?_, by simp, hp⟩
      simp only [updateFirst, hp, if_pos] at h
      exact (Option.some.injEq _ _ ▸ h).symm
    · simp only [updateFirst, hp, if_neg, Bool.false_eq_true, not_false_iff,
        Option.map_eq_some'] at h
      obtain ⟨a, ha, rfl⟩ := h
      obtain ⟨pre, r0, post, h1, h2, h3, h4⟩ := ih a ha
      refine ⟨r :: pre, r0, post, by simp [h1], by simp [h2], ?_, h4⟩
      intro x hx
      rcases List.mem_cons.mp hx with rfl | hx
      · simpa using hp
      · exact h3 x hx

theorem deleteFirst_eq_none (p : Rcd → Bool) (l : List Rcd) :
    deleteFirst p l = none ↔ ∀ r ∈ l, p r = false := by
  induction l with
  | nil => simp [deleteFirst]
  | cons r rest ih =>
    by_cases h : p r <;> simp [deleteFirst, h, ih, Option.map_eq_none']

theorem deleteFirst_eq_some (p : Rcd → Bool) (l : List Rcd) (r0 : Rcd) (l' : List Rcd)
    (h : deleteFirst p l = some (r0, l')) :
    ∃ pre post, l = pre ++ r0 :: post ∧ l' = pre ++ post ∧
      (∀ r ∈ pre, p r = false) ∧ p r0 = true := by
  induction l generalizing l' r0 with
  | nil => simp [deleteFirst] at h
  | cons r rest ih =>
    by_cases hp : p r
    · simp only [deleteFirst, hp, if_pos, Option.some.injEq, Prod.mk.injEq] at h
      exact ⟨[], rest, by simp [h.1.symm], by simp [h.2.symm], by simp, h.1 ▸ hp⟩
    · simp only [deleteFirst, hp, if_neg, Bool.false_eq_true, not_false_iff,
        Option.map_eq_some'] at h
      obtain ⟨⟨a, b⟩, ha, hab⟩ := h
      obtain ⟨rfl, rfl⟩ := Prod.mk.injEq _ _ _ _ ▸ hab
      obtain ⟨pre, post, h1, h2, h3, h4⟩ := ih a b ha
      refine ⟨r :: pre, post, by simp [h1], by simp [h2], ?_, h4⟩
      intro x hx
      rcases List.mem_cons.mp hx with rfl | hx
      · simpa using hp
      · exact h3 x hx

theorem find?_congr {α : Type} (p q : α → Bool) (l : List α)
    (h : ∀ x ∈ l, p x = q x) : l.find? p = l.find? q := by
  induction l with
  | nil => rfl
  | cons a rest ih =>
    have ha := h a (by simp)
    by_cases hp : p a
    · simp [List.find?, hp, ha ▸ hp]
    · have hq : ¬ q a = true := by rw [← ha]; exact hp
      simp only [List.find?]
      rw [Bool.eq_false_iff.mpr hp, Bool.eq_false_iff.mpr hq]
      exact ih (fun x hx => h x (by simp [hx]))

theorem updateFirst_congr (p q : Rcd → Bool) (l : List Rcd)
    (h : ∀ x ∈ l, p x = q x) (f : Rcd → Rcd) : updateFirst p f l = updateFirst q f l := by
  induction l with
  | nil => rfl
  | cons a rest ih =>
    have ha := h a (by simp)
    simp only [updateFirst, ha]
    rw [ih (fun x hx => h x (by simp [hx]))]

theorem deleteFirst_congr (p q : Rcd → Bool) (l : List Rcd)
    (h : ∀ x ∈ l, p x = q x) : deleteFirst p l = deleteFirst q l := by
  induction l with
  | nil => rfl
  | cons a rest ih =>
    have ha := h a (by simp)
    simp only [deleteFirst, ha]
    rw [ih (fun x hx => h x (by simp [hx]))]

theorem getColl_setColl_self (db : DB) (r : String) (arr : List Rcd) :
    getColl (setColl db r arr) r = some arr := getA_setA_self db.colls r arr

theorem getColl_setColl_ne (db : DB) (r r' : String) (arr : List Rcd)
    (h : r ≠ r') : getColl (setColl db r arr) r' = getColl db r' :=
  getA_setA_ne db.colls r r' arr h

theorem mem_setA {α : Type} (l : List (String × α)) (k : String) (v : α)
    (p : String × α) (h : p ∈ setA l k v) : p = (k, v) ∨ p ∈ l := by
  induction l with
  | nil => simpa [setA] using h
  | cons kw rest ih =>
    by_cases hk : kw.1 = k
    · rw [show setA (kw :: rest) k v = (kw.1, v) :: rest by
        obtain ⟨a, b⟩ := kw; simp only at hk; simp [setA, hk]] at h
      rcases List.mem_cons.mp h with h | h
      · exact .inl (by rw [h, hk])
      · exact .inr (List.mem_cons.mpr (.inr h))
    · rw [show setA (kw :: rest) k v = kw :: setA rest k v by
        obtain ⟨a, b⟩ := kw; simp only at hk; simp [setA, hk]] at h
      rcases List.mem_cons.mp h with h | h
      · exact .inr (List.mem_cons.mpr (.inl h))
      · rcases ih h with h' | h'
        · exact .inl h'
        · exact .inr (List.mem_cons.mpr (.inr h'))

/-- Claim C6 fails on the code as stated: `getMany` stringifies each stored id
and tests strict membership in the requested id array, so a numerically passed
id never matches.  Concretely, the seeded `variants` collection holds a record
with stored id `101`, yet `getMany` for the number `101` returns nothing. -/
theorem C6_counterexample :
    (getCollD exDB "variants").head? =
      some [("id", vnum 101), ("style_id", vnum 1), ("color_name", vstr "Red")] ∧
    getMany exDB "variants" [vnum 101] = [] := by decide

/-- Claim C6 amended: `getMany` returns, in collection order, exactly the
records whose stringified stored id occurs (under strict equality) in the
requested id list — so only ids passed as the string form of the stored id
match, numeric ids match nothing — silently omitting requested ids that match
no record and raising no error for a partial miss. -/
theorem C6_amended_getMany (db : DB) (resource : String) (ids : List Value) :
    (∀ r, r ∈ getMany db resource ids ↔
        r ∈ getCollD db resource ∧ vstr (toStrO (getA r "id")) ∈ ids) ∧
    List.Sublist (getMany db resource ids) (getCollD db resource) ∧
    ∀ r n, getA r "id" = some (vnum n) →
      (r ∈ getMany db resource ids ↔
        r ∈ getCollD db resource ∧ vstr (toString n) ∈ ids) := by
  refine ⟨?_, List.filter_sublist _, ?_⟩
  · intro r
    simp [getMany, List.mem_filter, List.elem_iff]
  · intro r n hid
    simp [getMany, List.mem_filter, List.elem_iff, hid, toStrO, toStr, primStr, vnum]

theorem C6_amended_getMany_witness :
    [("id", vnum 101), ("style_id", vnum 1), ("color_name", vstr "Red")] ∈
      getMany exDB "variants" [vstr "101"] :=
  ((C6_amended_getMany exDB "variants" [vstr "101"]).2.2 _ 101 (by decide)).mpr
    (by decide)

theorem looseEq_num (n : Int) (v : Value) (h : looseEq (vnum n) v = true) :
    numJS v = some n := by
  cases v with
  | prim p =>
    cases p with
    | num m =>
      simp only [looseEq, vnum, looseEqP, decide_eq_true_eq] at h
      simp [numJS, numP, h]
    | str s =>
      simp only [looseEq, vnum, looseEqP, decide_eq_true_eq] at h
      simpa [numJS, numP] using h
    | nan => simp [looseEq, vnum, looseEqP] at h
  | specs l => simp [looseEq] at h

theorem idMatches_str_eq_num (s : String) (n : Int) (hs : strToNum s = some n)
    (r : Rcd) (hr : hasNumId r = true) :
    idMatches (vstr s) r = idMatches (vnum n) r := by
  unfold hasNumId at hr
  unfold idMatches
  rcases hid : getA r "id" with _ | v
  · rw [hid] at hr; simp at hr
  rw [hid] at hr
  rcases v with p | l
  · rcases p with m | t | _
    · simp only [looseEqO, looseEq, vstr, vnum, looseEqP, hs]
      simp [eq_comm, Option.some.injEq]
    · simp at hr
    · simp at hr
  · simp at hr

theorem numV_str (s : String) (n : Int) (hs : strToNum s = some n) :
    numV (vstr s) = vnum n := by
  simp [numV, numJS, numP, vstr, hs]

theorem numV_num (n : Int) : numV (vnum n) = vnum n := by
  simp [numV, numJS, numP, vnum]

theorem find?_unique_mem {α : Type} (p : α → Bool) (l : List α) (r : α)
    (hr : r ∈ l) (hp : p r = true)
    (huniq : ∀ x ∈ l, p x = true → x = r) : l.find? p = some r := by
  induction l with
  | nil => cases hr
  | cons a rest ih =>
    by_cases ha : p a
    · have haa : a = r := huniq a (by simp) ha
      subst haa
      simp [List.find?, ha]
    · simp only [List.find?]
      rw [Bool.eq_false_iff.mpr ha]
      rcases List.mem_cons.mp hr with rfl | hr'
      · exact absurd hp ha
      · exact ih hr' (fun x hx hpx => huniq x (by simp [hx]) hpx)

/-- The `update` operation when the target is found: the merged record
replaces the first match and is returned. -/
theorem update_found (db : DB) (resource : String) (id : Value) (vars : Rcd)
    (old : Rcd) (hf : (getCollD db resource).find? (idMatches id) = some old) :
    update db resource id vars =
      match updateFirst (idMatches id)
          (fun _ => setA (mergeRec old vars) "id" (numV id))
          (getCollD db resource) with
      | none => .error (.notFound resource (toStr id))
      | some arr' =>
        .ok (setA (mergeRec old vars) "id" (numV id), setColl db resource arr') := by
  unfold update
  simp only [hf]

/-- `deleteOne` when the splice succeeds: the record is removed and the
cascade runs on `Number(id)`. -/
theorem deleteOne_found (db : DB) (resource : String) (id : Value) (r0 : Rcd)
    (arr' : List Rcd)
    (hd : deleteFirst (idMatches id) (getCollD db resource) = some (r0, arr')) :
    deleteOne db resource id =
      (let db1 := setColl db resource arr'
       let db2 :=
        if resource = "styles" then
          setColl db1 "variants"
            ((getCollD db1 "variants").filter
              (fun v => !strictEqNum (getA v "style_id") (numV id)))
        else if resource = "variants" then
          setColl db1 "bom_items"
            ((getCollD db1 "bom_items").filter
              (fun b => !strictEqNum (getA b "variant_id") (numV id)))
        else db1
       .ok (r0, db2)) := by
  unfold deleteOne
  simp only [hd]

/-- Claim C10: `getOne`, `update` and `deleteOne` locate their target by loose
id equality: over a collection whose stored ids are numbers and which contains
a record matching the number `n`, calling any of the three with a string whose
numeric value is `n` (in particular the decimal string form of `n`) behaves
exactly as calling it with the number `n`; a record stored with id `n` is,
when ids are pairwise distinct, the record resolved; and `update` writes the
id back as the numeric value of the passed id. -/
theorem C10_loose_id_interface (db : DB) (resource : String) (s : String)
    (n : Int) (vars : Rcd) (hs : strToNum s = some n)
    (hnum : ∀ r ∈ getCollD db resource, hasNumId r = true)
    (hfound : ∃ r ∈ getCollD db resource, idMatches (vnum n) r = true) :
    getOne db resource (vstr s) = getOne db resource (vnum n) ∧
    update db resource (vstr s) vars = update db resource (vnum n) vars ∧
    deleteOne db resource (vstr s) = deleteOne db resource (vnum n) ∧
    (∀ u db', update db resource (vstr s) vars = .ok (u, db') →
      getA u "id" = some (vnum n)) ∧
    (∀ r ∈ getCollD db resource, getA r "id" = some (vnum n) →
      ((getCollD db resource).map (fun x => getA x "id")).Nodup →
      getOne db resource (vnum n) = .ok r) := by
  obtain ⟨r0, hr0, hp0⟩ := hfound
  have hmatch : ∀ x ∈ getCollD db resource,
      idMatches (vstr s) x = idMatches (vnum n) x :=
    fun x hx => idMatches_str_eq_num s n hs x (hnum x hx)
  have hfind := find?_congr _ _ (getCollD db resource) hmatch
  have hfne : (getCollD db resource).find? (idMatches (vnum n)) ≠ none := by
    intro hnone
    rw [List.find?_eq_none] at hnone
    exact absurd hp0 (by simp [hnone r0 hr0])
  rcases hf : (getCollD db resource).find? (idMatches (vnum n)) with _ | old
  · exact absurd hf hfne
  refine ⟨?_, ?_, ?_, ?_, ?_⟩
  · unfold getOne
    rw [hfind, hf]
  · rw [update_found db resource (vstr s) vars old (hfind.trans hf),
      update_found db resource (vnum n) vars old hf]
    simp only [updateFirst_congr (idMatches (vstr s)) (idMatches (vnum n))
      (getCollD db resource) hmatch, numV_str s n hs, numV_num n]
    rcases hu2 : updateFirst (idMatches (vnum n))
        (fun _ => setA (mergeRec old vars) "id" (vnum n))
        (getCollD db resource) with _ | arr2
    · rw [updateFirst_eq_none] at hu2
      exact absurd hp0 (by simp [hu2 r0 hr0])
    · simp only [hu2]
  · have hdne : deleteFirst (idMatches (vnum n)) (getCollD db resource) ≠ none := by
      intro hnone
      rw [deleteFirst_eq_none] at hnone
      exact absurd hp0 (by simp [hnone r0 hr0])
    rcases hd : deleteFirst (idMatches (vnum n)) (getCollD db resource) with _ | pr
    · exact absurd hd hdne
    obtain ⟨d0, darr⟩ := pr
    rw [deleteOne_found db resource (vstr s) d0 darr
        ((deleteFirst_congr _ _ _ hmatch).trans hd),
      deleteOne_found db resource (vnum n) d0 darr hd]
    simp only [numV_str s n hs, numV_num n]
  · intro u db' hu
    rw [update_found db resource (vstr s) vars old (hfind.trans hf)] at hu
    rcases hg : updateFirst (idMatches (vstr s))
        (fun _ => setA (mergeRec old vars) "id" (numV (vstr s)))
        (getCollD db resource) with _ | arr'
    · simp only [hg] at hu
      exact absurd hu (by simp)
    · simp only [hg, Except.ok.injEq, Prod.mk.injEq] at hu
      rw [← hu.1, numV_str s n hs]
      exact getA_setA_self _ _ _
  · intro r hr hid hnodup
    unfold getOne
    rw [find?_unique_mem (idMatches (vnum n)) _ r hr ?_ ?_]
    · simp [idMatches, hid, looseEqO, looseEq, vnum, looseEqP]
    · intro x hx hpx
      have hxnum := hnum x hx
      unfold hasNumId at hxnum
      rcases hxid : getA x "id" with _ | v
      · rw [hxid] at hxnum; simp at hxnum
      rw [hxid] at hxnum
      rcases v with p | l
      · rcases p with m | t | _
        · simp only [idMatches, hxid, looseEqO, looseEq, vnum, looseEqP,
            decide_eq_true_eq] at hpx
          subst hpx
          exact List.inj_on_of_nodup_map hnodup hx hr (by rw [hxid, hid]; rfl)
        · simp at hxnum
        · simp at hxnum
      · simp at hxnum

theorem numV_of (id : Value) (n : Int) (h : numJS id = some n) :
    numV id = vnum n := by
  simp [numV, h]

/-- `deleteOne` when nothing matches: the NotFound error, no state change. -/
theorem deleteOne_none (db : DB) (resource : String) (id : Value)
    (hd : deleteFirst (idMatches id) (getCollD db resource) = none) :
    deleteOne db resource id = .error (.notFound resource (toStr id)) := by
  unfold deleteOne
  simp only [hd]

/-- `deleteOne` on `styles` when the splice succeeds, with the cascade into
`variants` spelled out. -/
theorem deleteOne_styles_found (db : DB) (id : Value) (r0 : Rcd)
    (arr' : List Rcd)
    (hd : deleteFirst (idMatches id) (getCollD db "styles") = some (r0, arr')) :
    deleteOne db "styles" id = .ok (r0,
      setColl (setColl db "styles" arr') "variants"
        ((getCollD (setColl db "styles" arr') "variants").filter
          (fun v => !strictEqNum (getA v "style_id") (numV id)))) := by
  rw [deleteOne_found db "styles" id r0 arr' hd]
  rfl

/-- `deleteOne` on `variants` when the splice succeeds, with the cascade into
`bom_items` spelled out. -/
theorem deleteOne_variants_found (db : DB) (id : Value) (r0 : Rcd)
    (arr' : List Rcd)
    (hd : deleteFirst (idMatches id) (getCollD db "variants") = some (r0, arr')) :
    deleteOne db "variants" id = .ok (r0,
      setColl (setColl db "variants" arr') "bom_items"
        ((getCollD (setColl db "variants" arr') "bom_items").filter
          (fun b => !strictEqNum (getA b "variant_id") (numV id)))) := by
  rw [deleteOne_found db "variants" id r0 arr' hd]
  rfl

/-- `deleteOne` on any other resource: splice only, no cascade. -/
theorem deleteOne_other_found (db : DB) (resource : String) (id : Value)
    (r0 : Rcd) (arr' : List Rcd)
    (h1 : resource ≠ "styles") (h2 : resource ≠ "variants")
    (hd : deleteFirst (idMatches id) (getCollD db resource) = some (r0, arr')) :
    deleteOne db resource id = .ok (r0, setColl db resource arr') := by
  rw [deleteOne_found db resource id r0 arr' hd]
  simp only [if_neg h1, if_neg h2]

/-- Claim C3: the cascade fires exactly on single-record `deleteOne` of the
two declared relations and is non-transitive: deleting a `styles` record also
removes every `variants` record whose `style_id` equals the deleted style's id
while leaving `bom_items` (and every other collection) unchanged; deleting a
`variants` record also removes every `bom_items` record whose `variant_id`
equals the deleted variant's id; deleting any other resource removes only the
primary record; and `deleteMany` never touches any collection other than the
one named, so it never cascades. -/
theorem C3_cascade_policy :
    (∀ db id n deleted db', numJS id = some n →
      deleteOne db "styles" id = .ok (deleted, db') →
      getCollD db' "variants" =
        (getCollD db "variants").filter
          (fun v => !strictEqNum (getA v "style_id") (vnum n)) ∧
      getColl db' "bom_items" = getColl db "bom_items" ∧
      deleteFirst (idMatches id) (getCollD db "styles") =
        some (deleted, getCollD db' "styles") ∧
      (∀ m, getA deleted "id" = some (vnum m) → m = n) ∧
      (∀ r, r ≠ "styles" → r ≠ "variants" → getColl db' r = getColl db r)) ∧
    (∀ db id n deleted db', numJS id = some n →
      deleteOne db "variants" id = .ok (deleted, db') →
      getCollD db' "bom_items" =
        (getCollD db "bom_items").filter
          (fun b => !strictEqNum (getA b "variant_id") (vnum n)) ∧
      deleteFirst (idMatches id) (getCollD db "variants") =
        some (deleted, getCollD db' "variants") ∧
      (∀ r, r ≠ "variants" → r ≠ "bom_items" → getColl db' r = getColl db r)) ∧
    (∀ db resource id deleted db', resource ≠ "styles" → resource ≠ "variants" →
      deleteOne db resource id = .ok (deleted, db') →
      deleteFirst (idMatches id) (getCollD db resource) =
        some (deleted, getCollD db' resource) ∧
      (∀ r, r ≠ resource → getColl db' r = getColl db r)) ∧
    (∀ db resource ids r, r ≠ resource →
      getColl (deleteMany db resource ids).2 r = getColl db r) := by
  refine ⟨?_, ?_, ?_, ?_⟩
  · intro db id n deleted db' hn hdel
    rcases hd : deleteFirst (idMatches id) (getCollD db "styles") with _ | pr
    · rw [deleteOne_none db "styles" id hd] at hdel
      exact absurd hdel (by simp)
    obtain ⟨d0, arr'⟩ := pr
    rw [deleteOne_styles_found db id d0 arr' hd] at hdel
    simp only [Except.ok.injEq, Prod.mk.injEq] at hdel
    obtain ⟨rfl, rfl⟩ := hdel
    refine ⟨?_, ?_, ?_, ?_, ?_⟩
    · unfold getCollD
      rw [getColl_setColl_self, Option.getD_some,
        getColl_setColl_ne db "styles" "variants" arr' (by decide),
        numV_of id n hn]
    · rw [getColl_setColl_ne _ "variants" "bom_items" _ (by decide),
        getColl_setColl_ne _ "styles" "bom_items" _ (by decide)]
    · unfold getCollD
      rw [getColl_setColl_ne _ "variants" "styles" _ (by decide),
        getColl_setColl_self, Option.getD_some]
    · intro m hm
      obtain ⟨pre, post, hl, hl', hpre, hp⟩ := deleteFirst_eq_some _ _ _ _ hd
      unfold idMatches at hp
      rw [hm] at hp
      simp only [looseEqO] at hp
      have h2 := looseEq_num m id hp
      rw [hn] at h2
      exact (Option.some.inj h2).symm
    · intro r h1 h2
      rw [getColl_setColl_ne _ "variants" r _ (Ne.symm h2),
        getColl_setColl_ne _ "styles" r _ (Ne.symm h1)]
  · intro db id n deleted db' hn hdel
    rcases hd : deleteFirst (idMatches id) (getCollD db "variants") with _ | pr
    · rw [deleteOne_none db "variants" id hd] at hdel
      exact absurd hdel (by simp)
    obtain ⟨d0, arr'⟩ := pr
    rw [deleteOne_variants_found db id d0 arr' hd] at hdel
    simp only [Except.ok.injEq, Prod.mk.injEq] at hdel
    obtain ⟨rfl, rfl⟩ := hdel
    refine ⟨?_, ?_, ?_⟩
    · unfold getCollD
      rw [getColl_setColl_self, Option.getD_some,
        getColl_setColl_ne db "variants" "bom_items" arr' (by decide),
        numV_of id n hn]
    · unfold getCollD
      rw [getColl_setColl_ne _ "bom_items" "variants" _ (by decide),
        getColl_setColl_self, Option.getD_some]
    · intro r h1 h2
      rw [getColl_setColl_ne _ "bom_items" r _ (Ne.symm h2),
        getColl_setColl_ne _ "variants" r _ (Ne.symm h1)]
  · intro db resource id deleted db' h1 h2 hdel
    rcases hd : deleteFirst (idMatches id) (getCollD db resource) with _ | pr
    · rw [deleteOne_none db resource id hd] at hdel
      exact absurd hdel (by simp)
    obtain ⟨d0, arr'⟩ := pr
    rw [deleteOne_other_found db resource id d0 arr' h1 h2 hd] at hdel
    simp only [Except.ok.injEq, Prod.mk.injEq] at hdel
    obtain ⟨rfl, rfl⟩ := hdel
    refine ⟨?_, ?_⟩
    · unfold getCollD
      rw [getColl_setColl_self, Option.getD_some]
    · intro r hr
      rw [getColl_setColl_ne _ resource r _ (Ne.symm hr)]
  · intro db resource ids r hr
    unfold deleteMany
    rcases hc : getColl db resource with _ | arr
    · rfl
    · exact getColl_setColl_ne _ resource r _ (Ne.symm hr)

theorem C3_cascade_policy_witness :
    getCollD (setColl (setColl exDB "styles" []) "variants" []) "variants" =
      (getCollD exDB "variants").filter
        (fun v => !strictEqNum (getA v "style_id") (vnum 1)) ∧
    getColl (setColl (setColl exDB "styles" []) "variants" []) "bom_items" =
      getColl exDB "bom_items" := by
  have h := C3_cascade_policy.1 exDB (vnum 1) 1
    [("id", vnum 1), ("style_no", vstr "S1")]
    (setColl (setColl exDB "styles" []) "variants" []) (by decide) (by decide)
  exact ⟨h.1, h.2.1⟩

/-- Claim C8: failing operations change nothing: `getOne`/`update`/`deleteOne`
on an id that matches no record fail with the NotFound error and leave the
database unchanged; the clone request fails with the Validation error when
`new_color_name` is missing or falsy and with NotFound when the source variant
does not resolve, inserting nothing in either case; and a custom request that
does not match the registered clone pattern (or is not a `post`) fails with
Unimplemented and changes nothing. -/
theorem C8_failure_atomicity :
    (∀ db r id, (getCollD db r).find? (idMatches id) = none →
      getOne db r id = .error (.notFound r (toStr id)) ∧
      applyOp db (.getOne r id) = db) ∧
    (∀ db r id vars, (getCollD db r).find? (idMatches id) = none →
      update db r id vars = .error (.notFound r (toStr id)) ∧
      applyOp db (.update r id vars) = db) ∧
    (∀ db r id, deleteFirst (idMatches id) (getCollD db r) = none →
      deleteOne db r id = .error (.notFound r (toStr id)) ∧
      applyOp db (.deleteOne r id) = db) ∧
    (∀ db url method payload sid vid,
      matchClone url.data = some (sid, vid) → method = "post" →
      truthy (getA (payload.getD []) "new_color_name") = false →
      custom db url method payload = (.error (.missingParam "new_color_name"), db)) ∧
    (∀ db url method payload sid vid,
      matchClone url.data = some (sid, vid) → method = "post" →
      truthy (getA (payload.getD []) "new_color_name") = true →
      (getCollD db "variants").find?
        (fun v => strictEqNum (getA v "id") (vnum vid)) = none →
      custom db url method payload = (.error (.sourceVariantMissing vid), db)) ∧
    (∀ db url method payload, matchClone url.data = none →
      custom db url method payload = (.error (.unimplemented method url), db)) ∧
    (∀ db url method payload, method ≠ "post" →
      custom db url method payload = (.error (.unimplemented method url), db)) := by
  refine ⟨?_, ?_, ?_, ?_, ?_, ?_, ?_⟩
  · intro db r id h
    have h1 : getOne db r id = .error (.notFound r (toStr id)) := by
      unfold getOne
      simp only [h]
    exact ⟨h1, rfl⟩
  · intro db r id vars h
    have h1 : update db r id vars = .error (.notFound r (toStr id)) := by
      unfold update
      simp only [h]
    exact ⟨h1, by simp only [applyOp, h1]⟩
  · intro db r id h
    have h1 := deleteOne_none db r id h
    exact ⟨h1, by simp only [applyOp, h1]⟩
  · intro db url method payload sid vid hm hpost ht
    subst hpost
    unfold custom
    simp only [hm, beq_self_eq_true, ht, Bool.false_eq_true, if_false]
  · intro db url method payload sid vid hm hpost ht hfind
    subst hpost
    unfold custom
    simp only [hm, beq_self_eq_true, ht, if_true, hfind]
  · intro db url method payload hm
    unfold custom
    simp only [hm]
  · intro db url method payload hpost
    have hb : (method == "post") = false := by
      simpa using hpost
    unfold custom
    rcases hm : matchClone url.data with _ | pr
    · simp only [hm]
    · obtain ⟨a, b⟩ := pr
      simp only [hm, hb]

theorem C8_failure_atomicity_witness :
    getOne exDB "variants" (vnum 999) = .error (.notFound "variants" "999") ∧
    applyOp exDB (.deleteOne "variants" (vnum 999)) = exDB ∧
    custom exDB "/api/styles/1/variants/101/clone" "post" none =
      (.error (.missingParam "new_color_name"), exDB) ∧
    custom exDB "/api/styles/1/variants/999/clone" "post"
      (some [("new_color_name", vstr "G")]) =
      (.error (.sourceVariantMissing 999), exDB) ∧
    custom exDB "/nope" "post" none =
      (.error (.unimplemented "post" "/nope"), exDB) := by
  have h := C8_failure_atomicity
  refine ⟨(h.1 exDB "variants" (vnum 999) (by decide)).1,
    (h.2.2.1 exDB "variants" (vnum 999) (by decide)).2,
    h.2.2.2.1 exDB "/api/styles/1/variants/101/clone" "post" none 1 101
      (by decide) rfl (by decide),
    h.2.2.2.2.1 exDB "/api/styles/1/variants/999/clone" "post"
      (some [("new_color_name", vstr "G")]) 1 999
      (by decide) rfl (by decide) (by decide),
    h.2.2.2.2.2.1 exDB "/nope" "post" none (by decide)⟩

theorem map_id_of_eq {α : Type} (l : List α) (g : α → α) (h : ∀ x ∈ l, g x = x) :
    l.map g = l := by
  induction l with
  | nil => rfl
  | cons a rest ih => simp [h a (by simp), ih (fun x hx => h x (by simp [hx]))]

theorem setA_of_getA {α : Type} (o : List (String × α)) (f : String) (v : α)
    (h : getA o f = some v) : setA o f v = o := by
  induction o with
  | nil => simp [getA] at h
  | cons kw rest ih =>
    obtain ⟨k, w⟩ := kw
    by_cases hk : k = f
    · subst hk
      have hw : w = v := by simpa [getA] using h
      subst hw
      simp [setA]
    · simp only [getA, if_neg hk] at h
      simp [setA, hk, ih h]

/-- `idMatches` against a number, over a record with a numeric id, is exactly
id equality. -/
theorem idMatches_vnum (k : Int) (r : Rcd) (hr : hasNumId r = true) :
    (idMatches (vnum k) r = true) ↔ getA r "id" = some (vnum k) := by
  unfold hasNumId at hr
  rcases hid : getA r "id" with _ | v
  · rw [hid] at hr; simp at hr
  rw [hid] at hr
  rcases v with p | l
  · rcases p with m | t | _
    · simp [idMatches, hid, looseEqO, looseEq, vnum, looseEqP, eq_comm]
    · simp at hr
    · simp at hr
  · simp at hr

/-- `any (idMatches id)` depends only on the sequence of stored ids. -/
theorem any_idMatches_congr (arr arr' : List Rcd) (id : Value)
    (h : arr'.map (fun r => getA r "id") = arr.map (fun r => getA r "id")) :
    arr'.any (idMatches id) = arr.any (idMatches id) := by
  have e : ∀ l : List Rcd,
      l.any (idMatches id) = (l.map (fun r => getA r "id")).any (fun o => looseEqO o id) := by
    intro l
    induction l with
    | nil => rfl
    | cons a rest ih =>
      simp only [List.map_cons, List.any_cons, ih]
      rfl
  rw [e, e, h]

/-- When ids are numeric and pairwise distinct, `findIndex`+assignment against
a numeric id rewrites exactly the records that match (there is at most one). -/
theorem updateFirst_vnum_eq_map (k : Int) (f : Rcd → Rcd) (arr arr' : List Rcd)
    (hnum : ∀ r ∈ arr, hasNumId r = true)
    (hnodup : (arr.map (fun r => getA r "id")).Nodup)
    (h : updateFirst (idMatches (vnum k)) f arr = some arr') :
    arr' = arr.map (fun r => if idMatches (vnum k) r then f r else r) := by
  obtain ⟨pre, r0, post, hl, hl', hpre, hp0⟩ := updateFirst_eq_some _ _ _ _ h
  subst hl hl'
  have hid0 : getA r0 "id" = some (vnum k) :=
    (idMatches_vnum k r0 (hnum r0 (by simp))).mp hp0
  have hpost : ∀ r ∈ post, idMatches (vnum k) r = false := by
    intro r hr
    by_contra hmatch
    rw [Bool.not_eq_false] at hmatch
    have hidr : getA r "id" = some (vnum k) :=
      (idMatches_vnum k r (hnum r (by simp [hr]))).mp hmatch
    have := hnodup
    rw [List.map_append, List.map_cons, List.nodup_append] at this
    have h2 := this.2.1
    rw [List.nodup_cons] at h2
    exact h2.1 (by
      rw [hid0, ← hidr]
      exact List.mem_map_of_mem _ hr)
  rw [List.map_append, List.map_cons,
    map_id_of_eq pre _ (fun r hr => by simp [hpre r hr]),
    map_id_of_eq post _ (fun r hr => by simp [hpost r hr]),
    if_pos hp0]

/-- The `updateMany` loop never changes the sequence of stored ids when the
patch carries no `id` field. -/
theorem updateManyLoop_ids_stable (vars : Rcd) (ids : List Value)
    (arr : List Rcd) (hvars : "id" ∉ vars.map Prod.fst) :
    (updateManyLoop vars arr ids).1.map (fun r => getA r "id") =
      arr.map (fun r => getA r "id") := by
  induction ids generalizing arr with
  | nil => rfl
  | cons id rest ih =>
    rcases hu : updateFirst (idMatches id) (fun old => mergeRec old vars) arr with _ | arr1
    · simp only [updateManyLoop, hu]
      exact ih arr
    · rcases hres : updateManyLoop vars arr1 rest with ⟨a, u⟩
      simp only [updateManyLoop, hu, hres]
      have iha := ih arr1
      rw [hres] at iha
      rw [iha]
      obtain ⟨pre, r0, post, hl, hl', hpre, hp0⟩ := updateFirst_eq_some _ _ _ _ hu
      subst hl hl'
      simp only [List.map_append, List.map_cons]
      rw [getA_mergeRec_of_not_mem r0 vars "id" hvars]

/-- Full characterization of the `updateMany` loop over a healthy collection
(numeric, pairwise-distinct stored ids) for distinct numeric requested ids and
a patch without an `id` field: every requested id that matches a record
rewrites that record (and only it) with the `{...old, ...patch}` merge, the
requested ids that match nothing are skipped, and exactly the matching ids are
returned, in request order. -/
theorem updateManyLoop_char (vars : Rcd) (ns : List Int) (arr : List Rcd)
    (hvars : "id" ∉ vars.map Prod.fst)
    (hnum : ∀ r ∈ arr, hasNumId r = true)
    (hnodup : (arr.map (fun r => getA r "id")).Nodup)
    (hns : ns.Nodup) :
    updateManyLoop vars arr (ns.map vnum) =
      (arr.map (fun r =>
          if (ns.map vnum).any (fun id => idMatches id r) then mergeRec r vars else r),
       (ns.map vnum).filter (fun id => arr.any (idMatches id))) := by
  induction ns generalizing arr with
  | nil =>
    simp [updateManyLoop]
  | cons k ns ih =>
    have hnsk : k ∉ ns := (List.nodup_cons.mp hns).1
    have hnstail : ns.Nodup := (List.nodup_cons.mp hns).2
    simp only [List.map_cons]
    rcases hu : updateFirst (idMatches (vnum k)) (fun old => mergeRec old vars) arr with _ | arr1
    · have hnone : ∀ r ∈ arr, idMatches (vnum k) r = false :=
        (updateFirst_eq_none _ _ _).mp hu
      have hanyf : arr.any (idMatches (vnum k)) = false := by
        rw [List.any_eq_false]
        intro r hr
        rw [hnone r hr]
        simp
      simp only [updateManyLoop, hu]
      rw [ih arr hnum hnodup hnstail]
      refine Prod.ext ?_ ?_
      · simp only
        apply List.map_congr_left
        intro r hr
        simp [List.any_cons, hnone r hr]
      · simp only
        rw [List.filter_cons_of_neg (by simp [hanyf])]
    · have harr1 : arr1 = arr.map
          (fun r => if idMatches (vnum k) r then mergeRec r vars else r) :=
        updateFirst_vnum_eq_map k _ arr arr1 hnum hnodup hu
      have hids1 : arr1.map (fun r => getA r "id") = arr.map (fun r => getA r "id") := by
        rw [harr1, List.map_map]
        apply List.map_congr_left
        intro r hr
        by_cases hm : idMatches (vnum k) r
        · simp [hm, Function.comp, getA_mergeRec_of_not_mem r vars "id" hvars]
        · simp [hm, Function.comp]
      have hnum1 : ∀ r ∈ arr1, hasNumId r = true := by
        intro r hr
        rw [harr1] at hr
        obtain ⟨r', hr', rfl⟩ := List.mem_map.mp hr
        by_cases hm : idMatches (vnum k) r'
        · simp only [hm, if_true]
          unfold hasNumId
          rw [getA_mergeRec_of_not_mem r' vars "id" hvars]
          exact hnum r' hr'
        · simp only [hm, if_false]
          exact hnum r' hr'
      have hnodup1 : (arr1.map (fun r => getA r "id")).Nodup := by
        rw [hids1]; exact hnodup
      obtain ⟨pre, r0, post, hl, hl', hpre, hp0⟩ := updateFirst_eq_some _ _ _ _ hu
      have hmem0 : r0 ∈ arr := by rw [hl]; simp
      have hany0 : arr.any (idMatches (vnum k)) = true :=
        List.any_eq_true.mpr ⟨r0, hmem0, hp0⟩
      rcases hres : updateManyLoop vars arr1 (ns.map vnum) with ⟨a, u⟩
      simp only [updateManyLoop, hu, hres]
      have ihres := ih arr1 hnum1 hnodup1 hnstail
      rw [hres] at ihres
      obtain ⟨ha, hu2⟩ := Prod.mk.injEq _ _ _ _ ▸ ihres
      refine Prod.ext ?_ ?_
      · simp only [ha, harr1, List.map_map]
        apply List.map_congr_left
        intro r hr
        by_cases hm : idMatches (vnum k) r
        · have hidr : getA r "id" = some (vnum k) :=
            (idMatches_vnum k r (hnum r hr)).mp hm
          have hnomatch : ∀ j ∈ ns, idMatches (vnum j) (mergeRec r vars) = false := by
            intro j hj
            by_contra hc
            rw [Bool.not_eq_false] at hc
            have hnumm : hasNumId (mergeRec r vars) = true := by
              unfold hasNumId
              rw [getA_mergeRec_of_not_mem r vars "id" hvars]
              exact hnum r hr
            have := (idMatches_vnum j (mergeRec r vars) hnumm).mp hc
            rw [getA_mergeRec_of_not_mem r vars "id" hvars, hidr] at this
            have : k = j := by simpa [vnum] using this
            exact hnsk (this ▸ hj)
          have hanyn : (ns.map vnum).any
              (fun id => idMatches id (mergeRec r vars)) = false := by
            rw [List.any_eq_false]
            intro id hid
            obtain ⟨j, hj, rfl⟩ := List.mem_map.mp hid
            rw [hnomatch j hj]
            simp
          simp [Function.comp, hm, hanyn, List.any_cons]
        · simp only [Function.comp, hm, if_false, List.any_cons]
          simp [hm]
      · simp only [hu2]
        rw [List.filter_cons_of_pos (by simp [hany0])]
        congr 1
        apply List.filter_congr
        intro id hid
        rw [any_idMatches_congr arr arr1 id hids1]

/-- Claim C5 fails on the code as stated: unlike `update`, `updateMany` does
not re-assert the stored id after spreading the patch, so a patch carrying an
`id` field overwrites the record's id.  Concretely, patching styles record 1
with `{id: 99}` reports the id as updated and stores 99 in its place. -/
theorem C5_counterexample :
    (updateMany exDB "styles" [vnum 1] [("id", vnum 99)]).1 = [vnum 1] ∧
    getCollD (updateMany exDB "styles" [vnum 1] [("id", vnum 99)]).2 "styles" =
      [[("id", vnum 99), ("style_no", vstr "S1")]] := by decide

/-- Claim C5 amended: for a patch *without* an `id` field (the code does not
protect the id from overwrite — that clause of the claim is dropped),
`updateMany` over a healthy collection applies the `{...old, ...patch}` merge
(which then coincides with `update`'s merge, since re-asserting the unchanged
id is the identity) to each record matching a listed id, skips listed ids with
no match, leaves every other collection and every unmatched record unchanged,
and returns exactly the ids actually updated, in request order. -/
theorem C5_amended_updateMany (db : DB) (resource : String) (ns : List Int)
    (vars : Rcd) (hvars : noIdField vars)
    (hnum : ∀ r ∈ getCollD db resource, hasNumId r = true)
    (hnodup : ((getCollD db resource).map (fun r => getA r "id")).Nodup)
    (hns : ns.Nodup) :
    (updateMany db resource (ns.map vnum) vars).1 =
      (ns.map vnum).filter (fun id => (getCollD db resource).any (idMatches id)) ∧
    getCollD (updateMany db resource (ns.map vnum) vars).2 resource =
      (getCollD db resource).map
        (fun r => if (ns.map vnum).any (fun id => idMatches id r)
          then mergeRec r vars else r) ∧
    (∀ r', r' ≠ resource →
      getColl (updateMany db resource (ns.map vnum) vars).2 r' = getColl db r') ∧
    (∀ r k, getA r "id" = some (vnum k) →
      setA (mergeRec r vars) "id" (vnum k) = mergeRec r vars) := by
  have hmerge : ∀ r : Rcd, ∀ k : Int, getA r "id" = some (vnum k) →
      setA (mergeRec r vars) "id" (vnum k) = mergeRec r vars := by
    intro r k hk
    apply setA_of_getA
    rw [getA_mergeRec_of_not_mem r vars "id" hvars]
    exact hk
  rcases hc : getColl db resource with _ | arr
  · have hempty : getCollD db resource = [] := by
      unfold getCollD
      rw [hc]
      rfl
    have hres : updateMany db resource (ns.map vnum) vars = ([], db) := by
      unfold updateMany
      rw [hc]
    refine ⟨?_, ?_, ?_, hmerge⟩
    · rw [hres, hempty]
      simp
    · rw [hres, hempty]
      simp
    · intro r' hr'
      rw [hres]
  · have harr : getCollD db resource = arr := by
      unfold getCollD
      rw [hc]
      rfl
    have hchar := updateManyLoop_char vars ns arr hvars (harr ▸ hnum)
      (harr ▸ hnodup) hns
    have hres : updateMany db resource (ns.map vnum) vars =
        ((ns.map vnum).filter (fun id => arr.any (idMatches id)),
         setColl db resource (arr.map (fun r =>
           if (ns.map vnum).any (fun id => idMatches id r)
           then mergeRec r vars else r))) := by
      unfold updateMany
      simp only [hc, hchar]
    refine ⟨?_, ?_, ?_, hmerge⟩
    · rw [hres, harr]
    · rw [hres, harr]
      unfold getCollD
      rw [getColl_setColl_self, Option.getD_some]
    · intro r' hr'
      rw [hres]
      exact getColl_setColl_ne _ resource r' _ (Ne.symm hr')

theorem C5_amended_updateMany_witness :
    (updateMany exDB "styles" ([1, 999].map vnum) [("season", vstr "SS25")]).1 =
      ([1, 999].map vnum).filter
        (fun id => (getCollD exDB "styles").any (idMatches id)) ∧
    getCollD (updateMany exDB "styles" ([1, 999].map vnum)
        [("season", vstr "SS25")]).2 "styles" =
      (getCollD exDB "styles").map
        (fun r => if (([1, 999].map vnum)).any (fun id => idMatches id r)
          then mergeRec r [("season", vstr "SS25")] else r) := by
  have h := C5_amended_updateMany exDB "styles" [1, 999] [("season", vstr "SS25")]
    (by decide) (by decide) (by decide) (by decide)
  exact ⟨h.1, h.2.1⟩

/-- The spec-line cloning loop copies every entry in order (all fields except
`id` unchanged), assigns each a fresh id from the counter, and advances the
counter by exactly the number of entries. -/
theorem cloneSpecsLoop_char (specs : List Spec) (n : Int) :
    (cloneSpecsLoop specs n).2 = n + specs.length ∧
    List.Forall₂ (fun s s' =>
      (∀ g, g ≠ "id" → getA s' g = getA s g) ∧
      ∃ j, getA s' "id" = some (.num j) ∧ n ≤ j ∧ j < n + specs.length)
      specs (cloneSpecsLoop specs n).1 := by
  induction specs generalizing n with
  | nil => exact ⟨by simp [cloneSpecsLoop], by simp [cloneSpecsLoop]⟩
  | cons s rest ih =>
    rcases hres : cloneSpecsLoop rest (n + 1) with ⟨out, n1⟩
    have h := ih (n + 1)
    rw [hres] at h
    obtain ⟨hn1, hfa⟩ := h
    constructor
    · simp only [cloneSpecsLoop, hres, hn1, List.length_cons]
      push_cast
      ring
    · simp only [cloneSpecsLoop, hres]
      refine List.Forall₂.cons ⟨?_, n, getA_setA_self s "id" (.num n), le_refl n, ?_⟩
        (hfa.imp ?_)
      · intro g hg
        exact getA_setA_ne s "id" g (.num n) (Ne.symm hg)
      · simp only [List.length_cons]
        push_cast
        omega
      · rintro a b ⟨h1, j, h2, h3, h4⟩
        refine ⟨h1, j, h2, by omega, ?_⟩
        simp only [List.length_cons]
        push_cast at h4 ⊢
        omega

/-- Characterization of the successful clone loop over the selected bom items
(all of which carry a `specDetails` array): for each source item in order, the
clone id is allocated first (`const newBomId = nextId++`), then the spec
clones get the following ids — so the clone's id is strictly below its spec
line ids — the clone copies every other field, re-parents `variant_id`, and
the loop returns the exact bom and spec counts and a strictly advanced
counter, with all fresh ids in `[n, n')` and pairwise distinct. -/
theorem cloneBomsLoop_ok (newVid : Int) (boms : List Rcd) (n : Int)
    (hwf : ∀ b ∈ boms, hasSpecsArr b = true) :
    ∃ newBoms n',
      cloneBomsLoop newVid boms n =
        (.ok (), newBoms, boms.length, (boms.map specsLen).sum, n') ∧
      n ≤ n' ∧
      (∀ b' ∈ newBoms, ∃ k, getA b' "id" = some (vnum k) ∧ n ≤ k ∧ k < n') ∧
      (newBoms.map (fun r => getA r "id")).Nodup ∧
      List.Forall₂ (fun b b' =>
        (∀ f, f ≠ "id" → f ≠ "variant_id" → f ≠ "specDetails" →
          getA b' f = getA b f) ∧
        getA b' "variant_id" = some (vnum newVid) ∧
        ∃ k, getA b' "id" = some (vnum k) ∧ n ≤ k ∧ k < n' ∧
          ∃ l', getA b' "specDetails" = some (.specs l') ∧
            List.Forall₂ (fun s s' =>
              (∀ g, g ≠ "id" → getA s' g = getA s g) ∧
              ∃ j, getA s' "id" = some (.num j) ∧ k < j ∧ j < n')
              (specsOf b) l')
        boms newBoms := by
  induction boms generalizing n with
  | nil => exact ⟨[], n, rfl, le_refl n, by simp, by simp, .nil⟩
  | cons bom rest ih =>
    have hb := hwf bom (by simp)
    unfold hasSpecsArr at hb
    rcases hsd : getA bom "specDetails" with _ | v
    · rw [hsd] at hb; simp at hb
    rcases v with p | specs
    · rw [hsd] at hb; simp at hb
    rcases hcs : cloneSpecsLoop specs (n + 1) with ⟨cloned, n1⟩
    have hcschar := cloneSpecsLoop_char specs (n + 1)
    rw [hcs] at hcschar
    obtain ⟨hn1, hcsfa⟩ := hcschar
    dsimp only at hn1 hcsfa
    obtain ⟨newBoms, n', hloop, hle, hidsB, hnodup, hfa⟩ :=
      ih n1 (fun b hb' => hwf b (by simp [hb']))
    have hnn1 : n < n1 := by omega
    refine ⟨setA (setA (setA bom "id" (vnum n)) "variant_id" (vnum newVid))
        "specDetails" (.specs cloned) :: newBoms, n', ?_, by omega, ?_, ?_, ?_⟩
    · have hsl : specsLen bom = specs.length := by
        simp [specsLen, specsOf, hsd]
      simp only [cloneBomsLoop, hsd, hcs, hloop, List.length_cons, List.map_cons,
        List.sum_cons, hsl]
      simp [Nat.add_comm]
    · intro b' hb'
      rcases List.mem_cons.mp hb' with rfl | hb'
      · refine ⟨n, ?_, le_refl n, by omega⟩
        rw [getA_setA_ne _ "specDetails" "id" _ (by decide),
          getA_setA_ne _ "variant_id" "id" _ (by decide),
          getA_setA_self]
      · obtain ⟨k, hk1, hk2, hk3⟩ := hidsB b' hb'
        exact ⟨k, hk1, by omega, hk3⟩
    · rw [List.map_cons, List.nodup_cons]
      constructor
      · intro hmem
        obtain ⟨b', hb', hbid⟩ := List.mem_map.mp hmem
        obtain ⟨k, hk1, hk2, hk3⟩ := hidsB b' hb'
        rw [hk1] at hbid
        have hij : getA (setA (setA (setA bom "id" (vnum n)) "variant_id"
            (vnum newVid)) "specDetails" (.specs cloned)) "id" = some (vnum n) := by
          rw [getA_setA_ne _ "specDetails" "id" _ (by decide),
            getA_setA_ne _ "variant_id" "id" _ (by decide),
            getA_setA_self]
        rw [hij] at hbid
        have : k = n := by simpa [vnum] using hbid
        omega
      · exact hnodup
    · refine List.Forall₂.cons ⟨?_, ?_, n, ?_, le_refl n, by omega, cloned, ?_, ?_⟩
        (hfa.imp ?_)
      · intro f h1 h2 h3
        rw [getA_setA_ne _ "specDetails" f _ (Ne.symm h3),
          getA_setA_ne _ "variant_id" f _ (Ne.symm h2),
          getA_setA_ne _ "id" f _ (Ne.symm h1)]
      · rw [getA_setA_ne _ "specDetails" "variant_id" _ (by decide),
          getA_setA_self]
      · rw [getA_setA_ne _ "specDetails" "id" _ (by decide),
          getA_setA_ne _ "variant_id" "id" _ (by decide),
          getA_setA_self]
      · exact getA_setA_self _ _ _
      · have hspecs : specsOf bom = specs := by simp [specsOf, hsd]
        rw [hspecs]
        refine hcsfa.imp ?_
        rintro s s' ⟨h1, j, h2, h3, h4⟩
        exact ⟨h1, j, h2, by omega, by omega⟩
      · rintro b b' ⟨h1, h2, k, hk1, hk2, hk3, l', hl1, hl2⟩
        exact ⟨h1, h2, k, hk1, by omega, hk3, l', hl1, hl2⟩

/-- Master characterization of a successful clone request: the new variant is
the source with a fresh id (the counter value at entry) and the new color
name, pushed at the end of `variants`; the selected bom items are cloned in
order with fresh, pairwise-distinct ids drawn after the variant's, each
clone's id allocated before its spec-line ids; the returned summary carries
the new id, the color name, and the exact bom/spec counts; and no other
collection changes. -/
theorem custom_clone_ok (db : DB) (url : String) (payload : Option Rcd)
    (sid vid : Int) (v : Rcd) (ncnV : Value)
    (hm : matchClone url.data = some (sid, vid))
    (hncn : getA (payload.getD []) "new_color_name" = some ncnV)
    (ht : truthy (some ncnV) = true)
    (hfind : (getCollD db "variants").find?
      (fun x => strictEqNum (getA x "id") (vnum vid)) = some v)
    (hwf : ∀ b ∈ selectedBoms db vid, hasSpecsArr b = true) :
    ∃ newBoms n' db2,
      custom db url "post" payload =
        (.ok [("id", vnum db.nextId), ("color_name", ncnV),
          ("cloned_bom_count", vnum (selectedBoms db vid).length),
          ("cloned_spec_count", vnum ((selectedBoms db vid).map specsLen).sum)],
         db2) ∧
      db.nextId + 1 ≤ n' ∧ db2.nextId = n' ∧
      getCollD db2 "variants" = getCollD db "variants" ++
        [setA (setA v "id" (vnum db.nextId)) "color_name" ncnV] ∧
      getCollD db2 "bom_items" = getCollD db "bom_items" ++ newBoms ∧
      (∀ r, r ≠ "variants" → r ≠ "bom_items" → getColl db2 r = getColl db r) ∧
      (∀ b' ∈ newBoms, ∃ k, getA b' "id" = some (vnum k) ∧
        db.nextId + 1 ≤ k ∧ k < n') ∧
      (newBoms.map (fun r => getA r "id")).Nodup ∧
      List.Forall₂ (fun b b' =>
        (∀ f, f ≠ "id" → f ≠ "variant_id" → f ≠ "specDetails" →
          getA b' f = getA b f) ∧
        getA b' "variant_id" = some (vnum db.nextId) ∧
        ∃ k, getA b' "id" = some (vnum k) ∧ db.nextId + 1 ≤ k ∧ k < n' ∧
          ∃ l', getA b' "specDetails" = some (.specs l') ∧
            List.Forall₂ (fun s s' =>
              (∀ g, g ≠ "id" → getA s' g = getA s g) ∧
              ∃ j, getA s' "id" = some (.num j) ∧ k < j ∧ j < n')
              (specsOf b) l')
        (selectedBoms db vid) newBoms := by
  obtain ⟨newBoms, n', hloop, hle, hidsB, hnodup, hfa⟩ :=
    cloneBomsLoop_ok db.nextId (selectedBoms db vid) (db.nextId + 1) hwf
  have hsel : (getCollD (setColl { db with nextId := db.nextId + 1 } "variants"
      (getCollD db "variants" ++ [setA (setA v "id" (vnum db.nextId))
        "color_name" ncnV])) "bom_items").filter
      (fun b => strictEqNum (getA b "variant_id") (vnum vid)) =
      selectedBoms db vid := by
    unfold selectedBoms getCollD
    rw [getColl_setColl_ne _ "variants" "bom_items" _ (by decide)]
    rfl
  refine ⟨newBoms, n',
    setColl { (setColl { db with nextId := db.nextId + 1 } "variants"
      (getCollD db "variants" ++ [setA (setA v "id" (vnum db.nextId))
        "color_name" ncnV])) with nextId := n' } "bom_items"
      (getCollD (setColl { db with nextId := db.nextId + 1 } "variants"
        (getCollD db "variants" ++ [setA (setA v "id" (vnum db.nextId))
          "color_name" ncnV])) "bom_items" ++ newBoms),
    ?_, hle, rfl, ?_, ?_, ?_, hidsB, hnodup, hfa⟩
  · have hnid : (setColl { db with nextId := db.nextId + 1 } "variants"
        (getCollD db "variants" ++ [setA (setA v "id" (vnum db.nextId))
          "color_name" ncnV])).nextId = db.nextId + 1 := rfl
    unfold custom
    simp only [hm, beq_self_eq_true, hncn, Option.getD_some, ht, if_true, hfind,
      hnid, hsel, hloop]
  · unfold getCollD getColl setColl
    dsimp only
    rw [getA_setA_ne _ "bom_items" "variants" _ (by decide),
      getA_setA_self, Option.getD_some]
  · unfold getCollD getColl setColl
    dsimp only
    rw [getA_setA_self, Option.getD_some,
      getA_setA_ne _ "variants" "bom_items" _ (by decide)]
  · intro r h1 h2
    unfold getColl setColl
    dsimp only
    rw [getA_setA_ne _ "bom_items" r _ (Ne.symm h2),
      getA_setA_ne _ "variants" r _ (Ne.symm h1)]

theorem strictEqNum_eq (o : Option Value) (b : Int)
    (h : strictEqNum o (vnum b) = true) : o = some (vnum b) := by
  rcases o with _ | w
  · simp [strictEqNum] at h
  rcases w with p | l
  · rcases p with a | s | _
    · simp only [strictEqNum, vnum, decide_eq_true_eq] at h
      simp [vnum, h]
    · simp [strictEqNum, vnum] at h
    · simp [strictEqNum, vnum] at h
  · simp [strictEqNum] at h

theorem forall₂_mem_right {α β : Type} {R : α → β → Prop} {l1 : List α}
    {l2 : List β} (h : List.Forall₂ R l1 l2) (b : β) (hb : b ∈ l2) :
    ∃ a ∈ l1, R a b := by
  induction h with
  | nil => cases hb
  | cons hr hrest ih =>
    rcases List.mem_cons.mp hb with rfl | hb'
    · exact ⟨_, by simp, hr⟩
    · obtain ⟨a, ha, har⟩ := ih hb'
      exact ⟨a, by simp [ha], har⟩

/-- Claim C1: a clone request for an existing variant `v` (resolved by strict
id equality) with a non-empty `new_color_name` returns
`{id, color_name, cloned_bom_count, cloned_spec_count}` with the freshly
allocated variant id (the counter value), the new color name, and the exact
counts of bom items under `v` and of their spec lines at call time; it appends
a new variant copying every field of `v` except `id` and `color_name`, and,
for every selected source bom item in collection order, appends a clone
copying all fields except `id` (fresh), `variant_id` (the new variant's id)
and `specDetails` (an entry-wise copy with fresh ids, order and length
preserved). -/
theorem C1_clone_variant (db : DB) (url : String) (payload : Option Rcd)
    (sid vid : Int) (v : Rcd) (name : String)
    (hm : matchClone url.data = some (sid, vid))
    (hncn : getA (payload.getD []) "new_color_name" = some (vstr name))
    (hname : name ≠ "")
    (hfind : (getCollD db "variants").find?
      (fun x => strictEqNum (getA x "id") (vnum vid)) = some v)
    (hwf : ∀ b ∈ selectedBoms db vid, hasSpecsArr b = true) :
    getA v "id" = some (vnum vid) ∧
    ∃ newBoms db2,
      custom db url "post" payload =
        (.ok [("id", vnum db.nextId), ("color_name", vstr name),
          ("cloned_bom_count", vnum (selectedBoms db vid).length),
          ("cloned_spec_count", vnum ((selectedBoms db vid).map specsLen).sum)],
         db2) ∧
      getCollD db2 "variants" = getCollD db "variants" ++
        [setA (setA v "id" (vnum db.nextId)) "color_name" (vstr name)] ∧
      (∀ f, f ≠ "id" → f ≠ "color_name" →
        getA (setA (setA v "id" (vnum db.nextId)) "color_name" (vstr name)) f =
          getA v f) ∧
      getA (setA (setA v "id" (vnum db.nextId)) "color_name" (vstr name)) "id" =
        some (vnum db.nextId) ∧
      getA (setA (setA v "id" (vnum db.nextId)) "color_name" (vstr name))
        "color_name" = some (vstr name) ∧
      getCollD db2 "bom_items" = getCollD db "bom_items" ++ newBoms ∧
      List.Forall₂ (fun b b' =>
        (∀ f, f ≠ "id" → f ≠ "variant_id" → f ≠ "specDetails" →
          getA b' f = getA b f) ∧
        getA b' "variant_id" = some (vnum db.nextId) ∧
        (∃ k, getA b' "id" = some (vnum k) ∧ db.nextId < k) ∧
        ∃ l', getA b' "specDetails" = some (.specs l') ∧
          List.Forall₂ (fun s s' =>
            (∀ g, g ≠ "id" → getA s' g = getA s g) ∧
            ∃ j, getA s' "id" = some (.num j) ∧ db.nextId < j)
            (specsOf b) l')
        (selectedBoms db vid) newBoms := by
  have ht : truthy (some (vstr name)) = true := by simp [truthy, vstr, hname]
  obtain ⟨newBoms, n', db2, heq, hle, hnid, hvars, hboms, hoth, hids, hnodup, hfa⟩ :=
    custom_clone_ok db url payload sid vid v (vstr name) hm hncn ht hfind hwf
  have hsv : strictEqNum (getA v "id") (vnum vid) = true := by
    simpa using List.find?_some hfind
  have hvid : getA v "id" = some (vnum vid) := strictEqNum_eq _ vid hsv
  refine ⟨hvid, newBoms, db2, heq, hvars, ?_, ?_, getA_setA_self _ _ _, hboms,
    hfa.imp ?_⟩
  · intro f h1 h2
    rw [getA_setA_ne _ "color_name" f _ (Ne.symm h2),
      getA_setA_ne _ "id" f _ (Ne.symm h1)]
  · rw [getA_setA_ne _ "color_name" "id" _ (by decide), getA_setA_self]
  · rintro b b' ⟨h1, h2, k, hk1, hk2, hk3, l', hl1, hl2⟩
    exact ⟨h1, h2, ⟨k, hk1, by omega⟩, l', hl1,
      hl2.imp (by
        rintro _ _ ⟨hs1, j, hs2, hs3, hs4⟩
        exact ⟨hs1, j, hs2, by omega⟩)⟩

theorem C1_clone_variant_witness :
    (custom exDB "/api/styles/1/variants/101/clone" "post"
      (some [("new_color_name", vstr "Green")])).1 =
      .ok [("id", vnum 10000), ("color_name", vstr "Green"),
        ("cloned_bom_count", vnum 2), ("cloned_spec_count", vnum 3)] := by
  obtain ⟨hvid, newBoms, db2, heq, _⟩ :=
    C1_clone_variant exDB "/api/styles/1/variants/101/clone"
      (some [("new_color_name", vstr "Green")]) 1 101
      [("id", vnum 101), ("style_id", vnum 1), ("color_name", vstr "Red")]
      "Green" (by decide) (by decide) (by decide) (by decide) (by decide)
  rw [heq]
  rfl

/-- Claim C9 fails on the code as stated: the source allocates
`const newBomId = nextId++` *before* mapping `specDetails`, so each cloned bom
item's id is strictly *less* than its spec-line ids, not greater.  Concretely,
cloning variant 101 of the seed produces a bom clone with id 10001 whose spec
lines got ids 10002 and 10003, and 10001 > 10002 is false. -/
theorem C9_counterexample :
    (getCollD (custom exDB "/api/styles/1/variants/101/clone" "post"
        (some [("new_color_name", vstr "Green")])).2 "bom_items").drop 3 =
      [[("id", vnum 10001), ("variant_id", vnum 10000),
        ("material", vstr "cotton"),
        ("specDetails", .specs [[("id", .num 10002), ("size", .str "M")],
                                [("id", .num 10003), ("size", .str "L")]])],
       [("id", vnum 10004), ("variant_id", vnum 10000),
        ("material", vstr "wool"),
        ("specDetails", .specs [[("id", .num 10005), ("size", .str "S")]])]] ∧
    ¬ ((10001 : Int) > 10002) := by decide

/-- Claim C9 amended: identities are allocated from the strictly increasing
shared allocator in the order the code prescribes: first the new variant's id
(the counter value at entry), then, for each selected bom item in order, a
fresh id for the cloned bom item itself *before* the fresh ids for the entries
of its cloned `specDetails` sequence — so each cloned bom item's id is
strictly greater than the new variant's id and strictly *less* than the ids of
all of its own cloned spec lines, and the counter ends strictly above every id
issued. -/
theorem C9_amended_allocation_order (db : DB) (url : String)
    (payload : Option Rcd) (sid vid : Int) (v : Rcd) (ncnV : Value)
    (hm : matchClone url.data = some (sid, vid))
    (hncn : getA (payload.getD []) "new_color_name" = some ncnV)
    (ht : truthy (some ncnV) = true)
    (hfind : (getCollD db "variants").find?
      (fun x => strictEqNum (getA x "id") (vnum vid)) = some v)
    (hwf : ∀ b ∈ selectedBoms db vid, hasSpecsArr b = true) :
    ∃ newBoms n' db2,
      custom db url "post" payload =
        (.ok [("id", vnum db.nextId), ("color_name", ncnV),
          ("cloned_bom_count", vnum (selectedBoms db vid).length),
          ("cloned_spec_count", vnum ((selectedBoms db vid).map specsLen).sum)],
         db2) ∧
      db.nextId < n' ∧ db2.nextId = n' ∧
      getCollD db2 "bom_items" = getCollD db "bom_items" ++ newBoms ∧
      List.Forall₂ (fun b b' =>
        ∃ k, getA b' "id" = some (vnum k) ∧ db.nextId < k ∧ k < n' ∧
          ∃ l', getA b' "specDetails" = some (.specs l') ∧
            List.Forall₂ (fun _ s' =>
              ∃ j, getA s' "id" = some (.num j) ∧ k < j ∧ j < n')
              (specsOf b) l')
        (selectedBoms db vid) newBoms := by
  obtain ⟨newBoms, n', db2, heq, hle, hnid, hvars, hboms, hoth, hids, hnodup, hfa⟩ :=
    custom_clone_ok db url payload sid vid v ncnV hm hncn ht hfind hwf
  refine ⟨newBoms, n', db2, heq, by omega, hnid, hboms, hfa.imp ?_⟩
  rintro b b' ⟨h1, h2, k, hk1, hk2, hk3, l', hl1, hl2⟩
  exact ⟨k, hk1, by omega, hk3, l', hl1,
    hl2.imp (by
      rintro _ _ ⟨hs1, j, hs2, hs3, hs4⟩
      exact ⟨j, hs2, hs3, hs4⟩)⟩

theorem C9_amended_allocation_order_witness :
    ∃ newBoms n' db2,
      custom exDB "/api/styles/1/variants/101/clone" "post"
          (some [("new_color_name", vstr "Green")]) =
        (.ok [("id", vnum exDB.nextId), ("color_name", vstr "Green"),
          ("cloned_bom_count", vnum (selectedBoms exDB 101).length),
          ("cloned_spec_count", vnum ((selectedBoms exDB 101).map specsLen).sum)],
         db2) ∧
      exDB.nextId < n' ∧ db2.nextId = n' ∧
      getCollD db2 "bom_items" = getCollD exDB "bom_items" ++ newBoms ∧
      List.Forall₂ (fun b b' =>
        ∃ k, getA b' "id" = some (vnum k) ∧ exDB.nextId < k ∧ k < n' ∧
          ∃ l', getA b' "specDetails" = some (.specs l') ∧
            List.Forall₂ (fun _ s' =>
              ∃ j, getA s' "id" = some (.num j) ∧ k < j ∧ j < n')
              (specsOf b) l')
        (selectedBoms exDB 101) newBoms :=
  C9_amended_allocation_order exDB "/api/styles/1/variants/101/clone"
    (some [("new_color_name", vstr "Green")]) 1 101
    [("id", vnum 101), ("style_id", vnum 1), ("color_name", vstr "Red")]
    (vstr "Green") (by decide) (by decide) (by decide) (by decide) (by decide)

theorem idBelow_ne (bound : Int) (r : Rcd) (h : idBelow bound r = true)
    (k : Int) (hk : bound ≤ k) : getA r "id" ≠ some (vnum k) := by
  unfold idBelow at h
  rcases hid : getA r "id" with _ | w
  · simp
  rw [hid] at h
  rcases w with p | l
  · rcases p with m | s | _
    · simp only [decide_eq_true_eq] at h
      intro hc
      have : m = k := by simpa [vnum] using hc
      omega
    · simp at h
    · simp at h
  · simp at h

theorem specIdBelow_ne (bound : Int) (s : Spec) (h : specIdBelow bound s = true)
    (j : Int) (hj : bound ≤ j) : getA s "id" ≠ some (.num j) := by
  unfold specIdBelow at h
  rcases hid : getA s "id" with _ | p
  · simp
  rw [hid] at h
  rcases p with m | t | _
  · simp only [decide_eq_true_eq] at h
    intro hc
    have : m = j := by simpa using hc
    omega
  · simp at h
  · simp at h

/-- Any id at or above the allocator counter is the id of no source entity,
when every seeded id sits below the counter. -/
theorem freshFor_of_ge (db : DB) (n : Int) (hn : db.nextId ≤ n)
    (hvb : ∀ r ∈ getCollD db "variants", idBelow db.nextId r = true)
    (hbb : ∀ b ∈ getCollD db "bom_items", bomAllBelow db.nextId b = true) :
    freshFor db n := by
  constructor
  · intro r hr
    exact idBelow_ne db.nextId r (hvb r hr) n hn
  · intro b hb
    have hbel := hbb b hb
    simp only [bomAllBelow, Bool.and_eq_true] at hbel
    refine ⟨idBelow_ne db.nextId b hbel.1 n hn, ?_⟩
    intro s hs
    exact specIdBelow_ne db.nextId s (List.all_eq_true.mp hbel.2 s hs) n hn

/-- Claim C2: a successful clone leaves the source subtree exactly as it was —
both source collections are preserved verbatim (the new records are appended
after them) and every other collection is untouched — and, when every seeded
id sits below the allocator counter (the allocator contract), no record or
spec line of the cloned subtree carries the id of any entity of the source
database: the new variant's id, every cloned bom item's id and every cloned
spec line's id each differ from every source variant record id, every source
bom record id and every source spec-line id (`freshFor`); moreover no cloned
bom item is a record of the source collection, and no cloned spec line equals
(or shares an id with) any source spec line. -/
theorem C2_clone_isolation (db : DB) (url : String) (payload : Option Rcd)
    (sid vid : Int) (v : Rcd) (ncnV : Value)
    (hm : matchClone url.data = some (sid, vid))
    (hncn : getA (payload.getD []) "new_color_name" = some ncnV)
    (ht : truthy (some ncnV) = true)
    (hfind : (getCollD db "variants").find?
      (fun x => strictEqNum (getA x "id") (vnum vid)) = some v)
    (hwf : ∀ b ∈ selectedBoms db vid, hasSpecsArr b = true)
    (hvb : ∀ r ∈ getCollD db "variants", idBelow db.nextId r = true)
    (hbb : ∀ b ∈ getCollD db "bom_items", bomAllBelow db.nextId b = true) :
    ∃ newBoms db2,
      custom db url "post" payload =
        (.ok [("id", vnum db.nextId), ("color_name", ncnV),
          ("cloned_bom_count", vnum (selectedBoms db vid).length),
          ("cloned_spec_count", vnum ((selectedBoms db vid).map specsLen).sum)],
         db2) ∧
      getCollD db2 "variants" = getCollD db "variants" ++
        [setA (setA v "id" (vnum db.nextId)) "color_name" ncnV] ∧
      getCollD db2 "bom_items" = getCollD db "bom_items" ++ newBoms ∧
      (∀ r, r ≠ "variants" → r ≠ "bom_items" → getColl db2 r = getColl db r) ∧
      freshFor db db.nextId ∧
      (∀ b' ∈ newBoms,
        b' ∉ getCollD db "bom_items" ∧
        (∃ k, getA b' "id" = some (vnum k) ∧ freshFor db k) ∧
        (∀ s' ∈ specsOf b', ∃ j, getA s' "id" = some (.num j) ∧ freshFor db j) ∧
        (∀ r ∈ getCollD db "variants", getA b' "id" ≠ getA r "id") ∧
        (∀ b ∈ getCollD db "bom_items", getA b' "id" ≠ getA b "id" ∧
          ∀ s ∈ specsOf b, ∀ s' ∈ specsOf b', s' ≠ s ∧
            getA s' "id" ≠ getA s "id")) := by
  obtain ⟨newBoms, n', db2, heq, hle, hnid, hvars, hboms, hoth, hids, hnodup, hfa⟩ :=
    custom_clone_ok db url payload sid vid v ncnV hm hncn ht hfind hwf
  refine ⟨newBoms, db2, heq, hvars, hboms, hoth,
    freshFor_of_ge db db.nextId (le_refl _) hvb hbb, ?_⟩
  intro b' hb'
  obtain ⟨k, hk1, hk2, hk3⟩ := hids b' hb'
  obtain ⟨b0, hb0, ⟨_, _, k2, hk1', hk2', hk3', l', hl1, hl2⟩⟩ :=
    forall₂_mem_right hfa b' hb'
  have hkk : k = k2 := by
    rw [hk1] at hk1'
    simpa [vnum] using hk1'
  subst hkk
  have hsp : specsOf b' = l' := by simp [specsOf, hl1]
  refine ⟨?_, ⟨k, hk1, freshFor_of_ge db k (by omega) hvb hbb⟩, ?_, ?_, ?_⟩
  · intro hmem
    have hbel := hbb b' hmem
    simp only [bomAllBelow, Bool.and_eq_true] at hbel
    exact idBelow_ne db.nextId b' hbel.1 k (by omega) hk1
  · intro s' hs'
    rw [hsp] at hs'
    obtain ⟨s0, hs0, ⟨_, j, hj1, hj2, hj3⟩⟩ := forall₂_mem_right hl2 s' hs'
    exact ⟨j, hj1, freshFor_of_ge db j (by omega) hvb hbb⟩
  · intro r hr
    rw [hk1]
    exact fun hc => idBelow_ne db.nextId r (hvb r hr) k (by omega) hc.symm
  · intro b hb
    have hbel := hbb b hb
    simp only [bomAllBelow, Bool.and_eq_true] at hbel
    constructor
    · rw [hk1]
      exact fun hc => idBelow_ne db.nextId b hbel.1 k (by omega) hc.symm
    · intro s hs s' hs'
      rw [hsp] at hs'
      obtain ⟨s0, hs0, ⟨_, j, hj1, hj2, hj3⟩⟩ := forall₂_mem_right hl2 s' hs'
      have hsbel : specIdBelow db.nextId s = true :=
        List.all_eq_true.mp hbel.2 s hs
      constructor
      · intro hc
        subst hc
        exact specIdBelow_ne db.nextId s' hsbel j (by omega) hj1
      · rw [hj1]
        exact fun hc => specIdBelow_ne db.nextId s hsbel j (by omega) hc.symm

theorem C2_clone_isolation_witness :
    (custom exDB "/api/styles/1/variants/102/clone" "post"
      (some [("new_color_name", vstr "Pink")])).1 =
      .ok [("id", vnum 10000), ("color_name", vstr "Pink"),
        ("cloned_bom_count", vnum 1), ("cloned_spec_count", vnum 0)] := by
  obtain ⟨newBoms, db2, heq, _⟩ :=
    C2_clone_isolation exDB "/api/styles/1/variants/102/clone"
      (some [("new_color_name", vstr "Pink")]) 1 102
      [("id", vnum 102), ("style_id", vnum 1), ("color_name", vstr "Blue")]
      (vstr "Pink") (by decide) (by decide) (by decide) (by decide) (by decide)
      (by decide) (by decide)
  rw [heq]
  rfl

theorem getA_mem {α : Type} (l : List (String × α)) (k : String) (v : α)
    (h : getA l k = some v) : (k, v) ∈ l := by
  induction l with
  | nil => simp [getA] at h
  | cons kw rest ih =>
    obtain ⟨k', w⟩ := kw
    by_cases hk : k' = k
    · subst hk
      have hw : w = v := by simpa [getA] using h
      subst hw
      simp
    · simp only [getA, if_neg hk] at h
      simp [ih h]

theorem goodColl_mono (b b' : Int) (arr : List Rcd) (hb : b ≤ b')
    (h : goodColl b arr) : goodColl b' arr := by
  refine ⟨?_, h.2⟩
  intro r hr
  have h1 := h.1 r hr
  unfold idBelow at h1 ⊢
  rcases hid : getA r "id" with _ | w
  · rw [hid] at h1; simp at h1
  rw [hid] at h1
  rcases w with p | l
  · rcases p with m | s | _
    · simp only [decide_eq_true_eq] at h1 ⊢
      omega
    · simp at h1
    · simp at h1
  · simp at h1

theorem goodColl_of_map_eq (b : Int) (arr arr' : List Rcd)
    (hmap : arr'.map (fun r => getA r "id") = arr.map (fun r => getA r "id"))
    (h : goodColl b arr) : goodColl b arr' := by
  constructor
  · intro r hr
    have : getA r "id" ∈ arr.map (fun x => getA x "id") := by
      rw [← hmap]
      exact List.mem_map_of_mem _ hr
    obtain ⟨r0, hr0, hid⟩ := List.mem_map.mp this
    have h1 := h.1 r0 hr0
    unfold idBelow at h1 ⊢
    rw [← hid]
    exact h1
  · rw [hmap]
    exact h.2

theorem goodColl_sublist (b : Int) (arr arr' : List Rcd)
    (hsub : List.Sublist arr' arr) (h : goodColl b arr) : goodColl b arr' :=
  ⟨fun r hr => h.1 r (hsub.mem hr), h.2.sublist (hsub.map _)⟩

/-- Appending records whose fresh numeric ids live in `[b, b')` and are
pairwise distinct to a collection healthy at `b` yields a collection healthy
at `b'`. -/
theorem goodColl_append_many (b b' : Int) (arr new : List Rcd)
    (hb : b ≤ b') (h : goodColl b arr)
    (hnew : ∀ r ∈ new, ∃ k, getA r "id" = some (vnum k) ∧ b ≤ k ∧ k < b')
    (hnodup : (new.map (fun r => getA r "id")).Nodup) :
    goodColl b' (arr ++ new) := by
  constructor
  · intro r hr
    rcases List.mem_append.mp hr with hr | hr
    · exact (goodColl_mono b b' arr hb h).1 r hr
    · obtain ⟨k, hk1, hk2, hk3⟩ := hnew r hr
      unfold idBelow
      rw [hk1]
      simp only [vnum, decide_eq_true_eq]
      omega
  · rw [List.map_append]
    refine List.Nodup.append h.2 hnodup ?_
    intro x hx hx'
    obtain ⟨r, hr, hid⟩ := List.mem_map.mp hx
    obtain ⟨r', hr', hid'⟩ := List.mem_map.mp hx'
    obtain ⟨k, hk1, hk2, hk3⟩ := hnew r' hr'
    have hcontr : getA r "id" = some (vnum k) := by rw [hid, ← hid', hk1]
    exact idBelow_ne b r (h.1 r hr) k hk2 hcontr

theorem Inv_setColl_bound (db : DB) (r : String) (arr : List Rcd) (b : Int)
    (hInv : Inv db) (hb : db.nextId ≤ b) (hgood : goodColl b arr) :
    Inv { colls := setA db.colls r arr, nextId := b } := by
  intro p hp
  rcases mem_setA _ _ _ p hp with rfl | hp'
  · exact hgood
  · exact goodColl_mono _ _ _ hb (hInv p hp')

/-- The collection a facade operation reads is healthy under the invariant. -/
theorem goodColl_getCollD (db : DB) (r : String) (hInv : Inv db) :
    goodColl db.nextId (getCollD db r) := by
  unfold getCollD getColl
  rcases hc : getA db.colls r with _ | arr
  · exact ⟨by simp, by simp⟩
  · exact hInv (r, arr) (getA_mem _ _ _ hc)

theorem deleteManyLoop_sublist (arr : List Rcd) (ids : List Value) :
    List.Sublist (deleteManyLoop arr ids).1 arr := by
  induction ids generalizing arr with
  | nil => simp [deleteManyLoop]
  | cons id rest ih =>
    rcases hd : deleteFirst (idMatches id) arr with _ | pr
    · simp only [deleteManyLoop, hd]
      exact ih arr
    · obtain ⟨r0, arr1⟩ := pr
      rcases hres : deleteManyLoop arr1 rest with ⟨a, u⟩
      simp only [deleteManyLoop, hd, hres]
      have ha : List.Sublist a arr1 := by
        have := ih arr1
        rw [hres] at this
        exact this
      obtain ⟨pre, post, hl, hl', hpre, hp0⟩ := deleteFirst_eq_some _ _ _ _ hd
      subst hl hl'
      exact ha.trans ((List.sublist_cons_self r0 post).append_left pre)

/-- Id bounds for the clone loop, valid whether it completes or throws the
mid-loop `TypeError`: the counter never decreases, and every bom clone
appended so far carries a fresh numeric id in `[n, n')`, pairwise distinct. -/
theorem cloneBomsLoop_ids (newVid : Int) (boms : List Rcd) (n : Int)
    (e : Except Err Unit) (newBoms : List Rcd) (bc sc : Nat) (n' : Int)
    (heq : cloneBomsLoop newVid boms n = (e, newBoms, bc, sc, n')) :
    n ≤ n' ∧
    (∀ b' ∈ newBoms, ∃ k, getA b' "id" = some (vnum k) ∧ n ≤ k ∧ k < n') ∧
    (newBoms.map (fun r => getA r "id")).Nodup := by
  induction boms generalizing n e newBoms bc sc n' with
  | nil =>
    simp only [cloneBomsLoop] at heq
    cases heq
    exact ⟨le_refl _, by simp, by simp⟩
  | cons bom rest ih =>
    rcases hsd : getA bom "specDetails" with _ | v
    · simp only [cloneBomsLoop, hsd] at heq
      cases heq
      exact ⟨by omega, by simp, by simp⟩
    rcases v with p | specs
    · simp only [cloneBomsLoop, hsd] at heq
      cases heq
      exact ⟨by omega, by simp, by simp⟩
    rcases hcs : cloneSpecsLoop specs (n + 1) with ⟨cloned, n1⟩
    have hchar := cloneSpecsLoop_char specs (n + 1)
    rw [hcs] at hchar
    obtain ⟨hn1, -⟩ := hchar
    dsimp only at hn1
    rcases hloop : cloneBomsLoop newVid rest n1 with ⟨e1, nb1, bc1, sc1, n1'⟩
    simp only [cloneBomsLoop, hsd, hcs, hloop] at heq
    cases heq
    obtain ⟨hle, hids, hnodup⟩ := ih n1 _ _ _ _ _ hloop
    have hidnew : getA (setA (setA (setA bom "id" (vnum n)) "variant_id"
        (vnum newVid)) "specDetails" (.specs cloned)) "id" = some (vnum n) := by
      rw [getA_setA_ne _ "specDetails" "id" _ (by decide),
        getA_setA_ne _ "variant_id" "id" _ (by decide),
        getA_setA_self]
    refine ⟨by omega, ?_, ?_⟩
    · intro b' hb'
      rcases List.mem_cons.mp hb' with rfl | hb'
      · exact ⟨n, hidnew, le_refl _, by omega⟩
      · obtain ⟨k, h1, h2, h3⟩ := hids b' hb'
        exact ⟨k, h1, by omega, h3⟩
    · rw [List.map_cons, List.nodup_cons]
      refine ⟨?_, hnodup⟩
      intro hmem
      obtain ⟨b', hb', hbid⟩ := List.mem_map.mp hmem
      obtain ⟨k, h1, h2, h3⟩ := hids b' hb'
      rw [h1, hidnew] at hbid
      have : k = n := by simpa [vnum] using hbid
      omega

theorem find?_first {α : Type} (p : α → Bool) (pre : List α) (r0 : α)
    (post : List α) (hpre : ∀ r ∈ pre, p r = false) (hp0 : p r0 = true) :
    (pre ++ r0 :: post).find? p = some r0 := by
  induction pre with
  | nil => simp [List.find?, hp0]
  | cons a rest ih =>
    have ha := hpre a (by simp)
    simp only [List.cons_append, List.find?]
    rw [ha]
    exact ih (fun r hr => hpre r (by simp [hr]))

theorem Inv_nextId_mono (db : DB) (m : Int) (h : Inv db)
    (hm : db.nextId ≤ m) : Inv { db with nextId := m } :=
  fun p hp => goodColl_mono _ _ _ hm (h p hp)

/-- `create` preserves the invariant when handed no `id` field, and assigns
the record the counter value as its id. -/
theorem create_inv (db : DB) (resource : String) (vars : Rcd)
    (hInv : Inv db) (hvars : noIdField vars) :
    Inv (create db resource vars).2 ∧
    getA (create db resource vars).1 "id" = some (vnum db.nextId) := by
  have hid : getA (mergeRec [("id", vnum db.nextId)] vars) "id" =
      some (vnum db.nextId) := by
    rw [getA_mergeRec_of_not_mem _ _ _ hvars]
    simp [getA]
  constructor
  · unfold create setColl
    dsimp only
    apply Inv_setColl_bound db resource _ (db.nextId + 1) hInv (by omega)
    apply goodColl_append_many db.nextId (db.nextId + 1) _ _ (by omega) ?_ ?_
      (by simp)
    · rcases hc : getColl db resource with _ | a
      · exact ⟨by simp, by simp⟩
      · exact hInv (resource, a) (getA_mem _ _ _ hc)
    · intro r hr
      rw [List.mem_singleton.mp hr]
      exact ⟨db.nextId, hid, le_refl _, by omega⟩
  · exact hid

/-- `update` preserves the invariant: the merged record keeps the matched
record's numeric id (the trailing `id: Number(id)` write restores it). -/
theorem update_inv (db : DB) (resource : String) (id : Value) (vars : Rcd)
    (hInv : Inv db) : Inv (applyOp db (.update resource id vars)) := by
  rcases hf : (getCollD db resource).find? (idMatches id) with _ | old
  · have h1 : update db resource id vars = .error (.notFound resource (toStr id)) := by
      unfold update
      simp only [hf]
    simp only [applyOp, h1]
    exact hInv
  · have hgc := goodColl_getCollD db resource hInv
    have hold : old ∈ getCollD db resource := List.mem_of_find?_eq_some hf
    have hbel := hgc.1 old hold
    unfold idBelow at hbel
    rcases hoid : getA old "id" with _ | w
    · rw [hoid] at hbel; simp at hbel
    rw [hoid] at hbel
    rcases w with p | l
    rotate_left
    · simp at hbel
    rcases p with m | t | _
    rotate_left
    · simp at hbel
    · simp at hbel
    have hmatch : idMatches id old = true := by
      simpa using List.find?_some hf
    have hnum : numV id = vnum m := by
      apply numV_of
      apply looseEq_num
      unfold idMatches at hmatch
      rw [hoid] at hmatch
      simpa [looseEqO] using hmatch
    rcases hu : updateFirst (idMatches id)
        (fun _ => setA (mergeRec old vars) "id" (numV id))
        (getCollD db resource) with _ | arr'
    · rw [updateFirst_eq_none] at hu
      have := hu old hold
      rw [hmatch] at this
      cases this
    have h1 := update_found db resource id vars old hf
    rw [hu] at h1
    simp only [applyOp, h1]
    obtain ⟨pre, r0, post, hl, hl', hpre, hp0⟩ := updateFirst_eq_some _ _ _ _ hu
    have hr0 : (getCollD db resource).find? (idMatches id) = some r0 := by
      rw [hl]
      exact find?_first _ pre r0 post hpre hp0
    have holdr0 : old = r0 := by
      rw [hf] at hr0
      exact Option.some.inj hr0
    subst holdr0
    have hup_id : getA (setA (mergeRec old vars) "id" (numV id)) "id" =
        getA old "id" := by
      rw [getA_setA_self, hnum, hoid]
      rfl
    have hmap : arr'.map (fun r => getA r "id") =
        (getCollD db resource).map (fun r => getA r "id") := by
      rw [hl, hl', List.map_append, List.map_append, List.map_cons,
        List.map_cons, hup_id]
    exact Inv_setColl_bound db resource arr' db.nextId hInv (le_refl _)
      (goodColl_of_map_eq _ _ _ hmap hgc)

/-- `deleteOne` preserves the invariant: the splice keeps a sublist, and the
cascades are filters. -/
theorem deleteOne_inv (db : DB) (resource : String) (id : Value)
    (hInv : Inv db) : Inv (applyOp db (.deleteOne resource id)) := by
  rcases hd : deleteFirst (idMatches id) (getCollD db resource) with _ | pr
  · have h1 := deleteOne_none db resource id hd
    simp only [applyOp, h1]
    exact hInv
  obtain ⟨r0, arr'⟩ := pr
  have h1 := deleteOne_found db resource id r0 arr' hd
  simp only [applyOp, h1]
  obtain ⟨pre, post, hl, hl', hpre, hp0⟩ := deleteFirst_eq_some _ _ _ _ hd
  have hsub : List.Sublist arr' (getCollD db resource) := by
    rw [hl, hl']
    exact (List.sublist_cons_self r0 post).append_left pre
  have hInv1 : Inv (setColl db resource arr') :=
    Inv_setColl_bound db resource arr' db.nextId hInv (le_refl _)
      (goodColl_sublist _ _ _ hsub (goodColl_getCollD db resource hInv))
  by_cases hs : resource = "styles"
  · subst hs
    simp only [if_pos rfl]
    exact Inv_setColl_bound (setColl db "styles" arr') "variants" _
      (setColl db "styles" arr').nextId hInv1 (le_refl _)
      (goodColl_sublist _ _ _ (List.filter_sublist _)
        (goodColl_getCollD (setColl db "styles" arr') "variants" hInv1))
  by_cases hv : resource = "variants"
  · subst hv
    simp only [if_neg hs, if_pos rfl]
    exact Inv_setColl_bound (setColl db "variants" arr') "bom_items" _
      (setColl db "variants" arr').nextId hInv1 (le_refl _)
      (goodColl_sublist _ _ _ (List.filter_sublist _)
        (goodColl_getCollD (setColl db "variants" arr') "bom_items" hInv1))
  · simp only [if_neg hs, if_neg hv]
    exact hInv1

theorem updateMany_inv (db : DB) (resource : String) (ids : List Value)
    (vars : Rcd) (hInv : Inv db) (hvars : noIdField vars) :
    Inv (updateMany db resource ids vars).2 := by
  unfold updateMany
  rcases hc : getColl db resource with _ | arr
  · exact hInv
  rcases hres : updateManyLoop vars arr ids with ⟨arr', upd⟩
  simp only [hres]
  have hstable := updateManyLoop_ids_stable vars ids arr hvars
  rw [hres] at hstable
  exact Inv_setColl_bound db resource arr' db.nextId hInv (le_refl _)
    (goodColl_of_map_eq _ _ _ hstable (hInv (resource, arr) (getA_mem _ _ _ hc)))

theorem deleteMany_inv (db : DB) (resource : String) (ids : List Value)
    (hInv : Inv db) : Inv (deleteMany db resource ids).2 := by
  unfold deleteMany
  rcases hc : getColl db resource with _ | arr
  · exact hInv
  rcases hres : deleteManyLoop arr ids with ⟨arr', del⟩
  simp only [hres]
  have hsub := deleteManyLoop_sublist arr ids
  rw [hres] at hsub
  exact Inv_setColl_bound db resource arr' db.nextId hInv (le_refl _)
    (goodColl_sublist _ _ _ hsub (hInv (resource, arr) (getA_mem _ _ _ hc)))

/-- The clone extension preserves the invariant on every path, including the
mid-loop `TypeError` one: all inserted records carry fresh ids below the final
counter. -/
theorem custom_inv (db : DB) (url method : String) (payload : Option Rcd)
    (hInv : Inv db) : Inv (custom db url method payload).2 := by
  rcases hm : matchClone url.data with _ | pr
  · unfold custom
    simp only [hm]
    exact hInv
  obtain ⟨sid, vid⟩ := pr
  rcases hb : method == "post" with _ | _
  · unfold custom
    simp only [hm, hb]
    exact hInv
  rcases ht : truthy (getA (payload.getD []) "new_color_name") with _ | _
  · unfold custom
    simp only [hm, hb, ht, Bool.false_eq_true, if_false]
    exact hInv
  rcases hf : (getCollD db "variants").find?
      (fun v => strictEqNum (getA v "id") (vnum vid)) with _ | v
  · unfold custom
    simp only [hm, hb, ht, if_true, hf]
    exact hInv
  set ncnV := (getA (payload.getD []) "new_color_name").getD (vnum 0) with hncn
  set newVariant := setA (setA v "id" (vnum db.nextId)) "color_name" ncnV
    with hnv
  set db1 := setColl { db with nextId := db.nextId + 1 } "variants"
    (getCollD db "variants" ++ [newVariant]) with hdb1
  have hsel : (getCollD db1 "bom_items").filter
      (fun b => strictEqNum (getA b "variant_id") (vnum vid)) =
      selectedBoms db vid := by
    rw [hdb1]
    unfold selectedBoms getCollD
    rw [getColl_setColl_ne _ "variants" "bom_items" _ (by decide)]
    rfl
  rcases hloop : cloneBomsLoop db.nextId (selectedBoms db vid)
      (db.nextId + 1) with ⟨e, newBoms, bc, sc, n'⟩
  obtain ⟨hle, hids, hnodup⟩ :=
    cloneBomsLoop_ids db.nextId (selectedBoms db vid) (db.nextId + 1)
      e newBoms bc sc n' hloop
  have hnid : db1.nextId = db.nextId + 1 := rfl
  have heq2 : (custom db url method payload).2 =
      setColl { db1 with nextId := n' } "bom_items"
        (getCollD db1 "bom_items" ++ newBoms) := by
    unfold custom
    simp only [hm, hb, ht, if_true, hf, hnid, hsel, hloop, ← hdb1, ← hncn, ← hnv]
    cases e <;> rfl
  rw [heq2]
  have hInv1 : Inv db1 := by
    rw [hdb1]
    unfold setColl
    dsimp only
    apply Inv_setColl_bound db "variants" _ (db.nextId + 1) hInv (by omega)
    apply goodColl_append_many db.nextId (db.nextId + 1) _ _ (by omega)
      (goodColl_getCollD db "variants" hInv) ?_ (by simp)
    intro r hr
    rw [List.mem_singleton.mp hr, hnv]
    refine ⟨db.nextId, ?_, le_refl _, by omega⟩
    rw [getA_setA_ne _ "color_name" "id" _ (by decide), getA_setA_self]
  have hInv2 : Inv { db1 with nextId := n' } :=
    Inv_nextId_mono db1 n' hInv1 (by omega)
  unfold setColl
  apply Inv_setColl_bound { db1 with nextId := n' } "bom_items" _ n' hInv2
    (le_refl _)
  apply goodColl_append_many (db.nextId + 1) n' _ _ (by omega) ?_ ?_ hnodup
  · exact goodColl_getCollD db1 "bom_items" hInv1
  · exact hids

theorem applyOp_inv (db : DB) (op : Op) (hInv : Inv db) (hok : opOk op) :
    Inv (applyOp db op) := by
  cases op with
  | getList r f p => exact hInv
  | getOne r i => exact hInv
  | getMany r i => exact hInv
  | create r v => exact (create_inv db r v hInv hok).1
  | update r i v => exact update_inv db r i v hInv
  | deleteOne r i => exact deleteOne_inv db r i hInv
  | updateMany r i v => exact updateMany_inv db r i v hInv hok
  | deleteMany r i => exact deleteMany_inv db r i hInv
  | custom u m p => exact custom_inv db u m p hInv

/-- Claim C4 fails on the code as stated: `create` spreads the caller's
object *after* the fresh id (`{ id: newId, ...variables }`), so a caller
passing an `id` field overrides the allocator and can duplicate an existing
id.  Concretely the seed satisfies the invariant, yet
`create("styles", {id: 1})` stores a second record with id 1. -/
theorem C4_counterexample :
    Inv exDB ∧
    ¬ ((getCollD (create exDB "styles" [("id", vnum 1)]).2 "styles").map
        (fun r => getA r "id")).Nodup := by decide

/-- Claim C4 amended: starting from a state whose collections are healthy
(numeric, pairwise-distinct ids all below the allocator counter — the
allocator contract), every sequence of facade operations preserves pairwise
distinctness of ids within each collection, *provided* the caller-supplied
objects of `create` and `updateMany` carry no `id` field (the code lets such
a field override the stored/fresh id); under the same proviso each `create`
stores a record whose id is the freshly allocated counter value, different
from every id already in the collection. -/
theorem C4_amended_id_uniqueness (db : DB) (ops : List Op)
    (hInv : Inv db) (hops : ∀ op ∈ ops, opOk op) :
    Inv (runOps db ops) ∧
    (∀ resource vars, noIdField vars →
      getA (create db resource vars).1 "id" = some (vnum db.nextId) ∧
      ∀ r ∈ getCollD db resource, getA r "id" ≠ some (vnum db.nextId)) := by
  constructor
  · suffices h : ∀ d, Inv d → (∀ op ∈ ops, opOk op) → Inv (runOps d ops) by
      exact h db hInv hops
    clear hInv hops
    induction ops with
    | nil => exact fun d hd _ => hd
    | cons op rest ih =>
      intro d hd hops
      exact ih (applyOp d op) (applyOp_inv d op hd (hops op (by simp)))
        (fun o ho => hops o (by simp [ho]))
  · intro resource vars hv
    refine ⟨(create_inv db resource vars hInv hv).2, ?_⟩
    intro r hr
    exact idBelow_ne db.nextId r ((goodColl_getCollD db resource hInv).1 r hr)
      db.nextId (le_refl _)

theorem C4_amended_id_uniqueness_witness :
    Inv (runOps exDB
      [.create "styles" [("style_no", vstr "S2")],
       .deleteOne "variants" (vnum 101),
       .custom "/api/styles/1/variants/102/clone" "post"
         (some [("new_color_name", vstr "Black")]),
       .updateMany "styles" [vnum 1] [("season", vstr "AW")],
       .deleteMany "bom_items" [vnum 202, vnum 999]]) :=
  (C4_amended_id_uniqueness exDB
    [.create "styles" [("style_no", vstr "S2")],
     .deleteOne "variants" (vnum 101),
     .custom "/api/styles/1/variants/102/clone" "post"
       (some [("new_color_name", vstr "Black")]),
     .updateMany "styles" [vnum 1] [("season", vstr "AW")],
     .deleteMany "bom_items" [vnum 202, vnum 999]]
    (by decide) (by decide)).1

theorem C10_loose_id_interface_witness :
    getOne exDB "variants" (vstr "101") = getOne exDB "variants" (vnum 101) ∧
    getOne exDB "variants" (vnum 101) =
      .ok [("id", vnum 101), ("style_id", vnum 1), ("color_name", vstr "Red")] := by
  have h := C10_loose_id_interface exDB "variants" "101" 101 [] (by decide)
    (by decide) (by decide)
  exact ⟨h.1, h.2.2.2.2 _ (by decide) (by decide) (by decide)⟩

end Mock
